import Mathlib

set_option maxHeartbeats 1000000

/-!
Verification development for the GNN-TAMP repository.

The planner (`planner.py`) operates on torch_geometric `Data` objects; we
embed them as `PygData`.  The scorer (the GNN model, an external artifact
loaded from a checkpoint) is a parameter: any function from a graph batch to
a list of node scores in a linearly ordered type, matching the declared
interface "one scalar per node".
-/

/-- Shallow embedding of a torch_geometric `Data` object as used by the
planner: `num_nodes` mirrors the row count of the node-feature matrix `x`
(whose entries are the constant 1.0 and carry no further information),
`edge_index` is the list of directed edges, and `edge_attr` the co-indexed
list of edge features. -/
structure PygData (α : Type) where
  num_nodes : Nat
  edge_index : List (Nat × Nat)
  edge_attr : List α
deriving DecidableEq

/-- Embedding of `remove_node_and_edges` (planner.py): drop the node's row
from `x` (so the node count decreases by one), drop every edge incident to
`node_idx` (the same boolean mask is applied to `edge_index` and
`edge_attr`, modelled by masking their zip), and shift every remaining
endpoint greater than `node_idx` down by one. -/
def remove_node_and_edges (data : PygData α) (node_idx : Nat) : PygData α :=
  let kept := (data.edge_index.zip data.edge_attr).filter
    (fun e => decide (e.1.1 ≠ node_idx ∧ e.1.2 ≠ node_idx))
  let shift : Nat → Nat := fun k => if node_idx < k then k - 1 else k
  { num_nodes := data.num_nodes - 1
    edge_index := kept.map (fun e => (shift e.1.1, shift e.1.2))
    edge_attr := kept.map (fun e => e.2) }

/-- Helper for `argmaxIdx`: fold keeping the first index (`best`) whose
value (`bv`) is maximal so far; a later element replaces it only when
strictly greater. -/
def argmaxIdxAux [LinearOrder β] (best : Nat) (bv : β) (i : Nat) : List β → Nat
  | [] => best
  | x :: xs => if bv < x then argmaxIdxAux i x (i + 1) xs else argmaxIdxAux best bv (i + 1) xs

/-- Index of the first maximal element of a list (torch `argmax` returns the
first maximal index); 0 on the empty list. -/
def argmaxIdx [LinearOrder β] : List β → Nat
  | [] => 0
  | x :: xs => argmaxIdxAux 0 x 1 xs

/-- Embedding of the greedy-peel `while target_pyg.num_nodes > 1` loop of
`create_plan` (planner.py).  Each iteration scores the current batch, picks
the first node of maximal score, appends its original identifier to the
removal order, deletes it from the batch and from the index-mapping list.
The loop runs at most `num_nodes - 1` times (each iteration removes exactly
one node), so the `fuel` argument supplied by `create_plan` never runs out;
it only makes the recursion structural. -/
def peel [LinearOrder β] (scorer : PygData α → List β) :
    Nat → PygData α → List Nat → List Nat → List Nat × List Nat × PygData α
  | 0, g, orig, acc => (acc, orig, g)
  | fuel + 1, g, orig, acc =>
    if 1 < g.num_nodes then
      let max_prob_node := argmaxIdx (scorer g)
      peel scorer fuel (remove_node_and_edges g max_prob_node)
        (orig.eraseIdx max_prob_node) (acc ++ [orig.getD max_prob_node 0])
    else (acc, orig, g)

/-- Embedding of `create_plan` (planner.py) on an already-built graph batch.
Mode 1 and mode 2 differ only in where the batch comes from (mode 1 parses
the target directory and keeps the first parsed graph, mode 2 takes the
caller's residual batch); the body below is the common computation on that
batch.  After the loop, when exactly one node remains its original
identifier is appended to the removal order, and that node is removed
(by original index) from the untouched deep copy of the input to form the
residual batch.  The reversed removal order is the building order.  When the
loop ends with a node count other than one (possible only for an empty
batch), the Python code raises `NameError` (`step_forward` is unbound);
this is modelled by `none`. -/
def create_plan [LinearOrder β] (scorer : PygData α → List β) (target_pyg : PygData α) :
    Option (List Nat × PygData α) :=
  let original_indices := List.range target_pyg.num_nodes
  let target_pyg_copy := target_pyg
  match peel scorer target_pyg.num_nodes target_pyg original_indices [] with
  | (removal_order, orig1, gfin) =>
    if gfin.num_nodes = 1 then
      some ((removal_order ++ [orig1.getD 0 0]).reverse,
            remove_node_and_edges target_pyg_copy (orig1.getD 0 0))
    else none

/-- The logistic transform applied by `create_plan` to the scorer's raw
logits (`torch.sigmoid`). -/
noncomputable def sigmoid (x : ℝ) : ℝ := 1 / (1 + Real.exp (-x))

/-- `create_plan` exactly as coded: the model emits real logits and the
selection step takes the argmax of their sigmoid. -/
noncomputable def create_plan_from_logits (model : PygData α → List ℝ) (g : PygData α) :
    Option (List Nat × PygData α) :=
  create_plan (fun d => (model d).map sigmoid) g

/-! Basic lemmas about `argmaxIdx`. -/

lemma argmaxIdxAux_lt [LinearOrder β] (xs : List β) :
    ∀ (best : Nat) (bv : β) (i : Nat), best < i →
      argmaxIdxAux best bv i xs < i + xs.length := by
  induction xs with
  | nil => intro best bv i h; simpa [argmaxIdxAux] using h
  | cons x xs ih =>
    intro best bv i h
    simp only [argmaxIdxAux, List.length_cons]
    by_cases hlt : bv < x
    · simp only [hlt, if_true]
      have := ih i x (i + 1) (Nat.lt_succ_self i)
      omega
    · simp only [hlt, if_false]
      have := ih best bv (i + 1) (Nat.lt_succ_of_lt h)
      omega

lemma argmaxIdx_lt [LinearOrder β] (l : List β) (h : l ≠ []) :
    argmaxIdx l < l.length := by
  cases l with
  | nil => exact absurd rfl h
  | cons x xs =>
    have h2 := argmaxIdxAux_lt (β := β) xs 0 x 1 Nat.one_pos
    simp only [argmaxIdx, List.length_cons]
    omega

lemma argmaxIdxAux_map [LinearOrder β] [LinearOrder γ] {f : β → γ}
    (hf : StrictMono f) (xs : List β) :
    ∀ (best : Nat) (bv : β) (i : Nat),
      argmaxIdxAux best (f bv) i (xs.map f) = argmaxIdxAux best bv i xs := by
  induction xs with
  | nil => intro best bv i; simp [argmaxIdxAux]
  | cons x xs ih =>
    intro best bv i
    simp only [List.map_cons, argmaxIdxAux, hf.lt_iff_lt]
    by_cases hlt : bv < x
    · simp [hlt, ih]
    · simp [hlt, ih]

lemma argmaxIdx_map [LinearOrder β] [LinearOrder γ] {f : β → γ}
    (hf : StrictMono f) (l : List β) : argmaxIdx (l.map f) = argmaxIdx l := by
  cases l with
  | nil => simp [argmaxIdx]
  | cons x xs => simpa [argmaxIdx] using argmaxIdxAux_map hf xs 0 x 1

lemma sigmoid_strictMono : StrictMono sigmoid := by
  intro x y hxy
  unfold sigmoid
  have hx : (0 : ℝ) < 1 + Real.exp (-x) := by positivity
  have hy : (0 : ℝ) < 1 + Real.exp (-y) := by positivity
  have hexp : Real.exp (-y) < Real.exp (-x) := Real.exp_lt_exp.mpr (by linarith)
  rw [div_lt_div_iff₀ hx hy]
  nlinarith

/-! `peel` and `create_plan` are insensitive to any transformation of the
scores that preserves the argmax. -/

lemma peel_congr [LinearOrder β] [LinearOrder γ]
    (s₁ : PygData α → List β) (s₂ : PygData α → List γ)
    (h : ∀ g, argmaxIdx (s₁ g) = argmaxIdx (s₂ g)) :
    ∀ (fuel : Nat) (g : PygData α) (orig acc : List Nat),
      peel s₁ fuel g orig acc = peel s₂ fuel g orig acc := by
  intro fuel
  induction fuel with
  | zero => intro g orig acc; rfl
  | succ fuel ih =>
    intro g orig acc
    simp only [peel, h g]
    by_cases hn : 1 < g.num_nodes
    · simp only [hn, if_true, ih]
    · simp only [hn, if_false]

lemma create_plan_congr [LinearOrder β] [LinearOrder γ]
    (s₁ : PygData α → List β) (s₂ : PygData α → List γ)
    (h : ∀ g, argmaxIdx (s₁ g) = argmaxIdx (s₂ g)) (g : PygData α) :
    create_plan s₁ g = create_plan s₂ g := by
  unfold create_plan
  simp only [peel_congr s₁ s₂ h]

/-! Invariant of the peel loop: with a contract-conforming scorer (one score
per node), starting from at least one node, the loop stops at exactly one
node, having appended original identifiers that together with the remaining
one are a permutation of the initial index-mapping list. -/

lemma perm_getD_cons_eraseIdx : ∀ (l : List Nat) (i : Nat), i < l.length →
    l.Perm (l.getD i 0 :: l.eraseIdx i) := by
  intro l
  induction l with
  | nil => intro i hi; simp at hi
  | cons x xs ih =>
    intro i hi
    cases i with
    | zero => simp
    | succ j =>
      have hj : j < xs.length := by simpa using hi
      have h1 : (x :: xs).Perm (x :: (xs.getD j 0 :: xs.eraseIdx j)) :=
        List.Perm.cons x (ih j hj)
      have h2 : (x :: xs.getD j 0 :: xs.eraseIdx j).Perm
          (xs.getD j 0 :: x :: xs.eraseIdx j) := List.Perm.swap _ _ _
      simpa using h1.trans h2

lemma remove_node_num_nodes (data : PygData α) (i : Nat) :
    (remove_node_and_edges data i).num_nodes = data.num_nodes - 1 := rfl

lemma peel_spec [LinearOrder β] (scorer : PygData α → List β)
    (hs : ∀ h, (scorer h).length = h.num_nodes) :
    ∀ (fuel : Nat) (g : PygData α) (orig acc : List Nat),
      orig.length = g.num_nodes → 1 ≤ g.num_nodes → g.num_nodes ≤ fuel + 1 →
      ∃ ro orig1 gfin, peel scorer fuel g orig acc = (acc ++ ro, orig1, gfin) ∧
        gfin.num_nodes = 1 ∧ orig1.length = 1 ∧ (ro ++ orig1).Perm orig := by
  intro fuel
  induction fuel with
  | zero =>
    intro g orig acc hlen h1 hle
    have hn : g.num_nodes = 1 := by omega
    exact ⟨[], orig, g, by simp [peel], hn, by omega, by simp⟩
  | succ fuel ih =>
    intro g orig acc hlen h1 hle
    by_cases hn : 1 < g.num_nodes
    · have hne : scorer g ≠ [] := by
        intro hnil
        have := hs g
        rw [hnil] at this
        simp at this
        omega
      have hidx : argmaxIdx (scorer g) < g.num_nodes := by
        have := argmaxIdx_lt (scorer g) hne
        rwa [hs g] at this
      set i := argmaxIdx (scorer g) with hi
      have hlen' : (orig.eraseIdx i).length = g.num_nodes - 1 := by
        rw [List.length_eraseIdx_of_lt (by omega)]
        omega
      have hrec := ih (remove_node_and_edges g i) (orig.eraseIdx i)
        (acc ++ [orig.getD i 0])
        (by rw [hlen', remove_node_num_nodes])
        (by rw [remove_node_num_nodes]; omega)
        (by rw [remove_node_num_nodes]; omega)
      obtain ⟨ro₁, orig1, gfin, heq, hg1, ho1, hperm⟩ := hrec
      refine ⟨orig.getD i 0 :: ro₁, orig1, gfin, ?_, hg1, ho1, ?_⟩
      · simp only [peel, hn, if_true]
        rw [heq]
        simp
      · have h₁ : (orig.getD i 0 :: (ro₁ ++ orig1)).Perm (orig.getD i 0 :: orig.eraseIdx i) :=
          List.Perm.cons _ hperm
        have h₂ := (perm_getD_cons_eraseIdx orig i (by omega)).symm
        simpa using h₁.trans h₂
    · have hg1 : g.num_nodes = 1 := by omega
      exact ⟨[], orig, g, by simp [peel, hn], hg1, by omega, by simp⟩

/-- Full specification of `create_plan` on a batch with at least one node
and a contract-conforming scorer: it succeeds, the building order is a
permutation of the original node identifiers `0 .. k-1` of length exactly
`k`, and the residual batch is the untouched input with the building
order's first element removed, hence has `k - 1` nodes. -/
lemma create_plan_spec [LinearOrder β] (scorer : PygData α → List β)
    (hs : ∀ h, (scorer h).length = h.num_nodes) (g : PygData α)
    (hk : 1 ≤ g.num_nodes) :
    ∃ bo res, create_plan scorer g = some (bo, res) ∧
      bo.length = g.num_nodes ∧ bo.Perm (List.range g.num_nodes) ∧
      res = remove_node_and_edges g (bo.headD 0) ∧
      res.num_nodes = g.num_nodes - 1 := by
  obtain ⟨ro, orig1, gfin, heq, hg1, ho1, hperm⟩ :=
    peel_spec scorer hs g.num_nodes g (List.range g.num_nodes) []
      (by simp) hk (by omega)
  obtain ⟨r, hr⟩ := List.length_eq_one.mp ho1
  subst hr
  have hhead : ((ro ++ [r]).reverse).headD 0 = r := by
    simp
  refine ⟨(ro ++ [r]).reverse, remove_node_and_edges g r, ?_, ?_, ?_, ?_, ?_⟩
  · unfold create_plan
    simp only [heq, hg1, if_true]
    simp
  · have := hperm.length_eq
    simp only [List.length_append, List.length_singleton, List.length_range] at this
    simp only [List.length_reverse, List.length_append, List.length_singleton]
    omega
  · exact (List.reverse_perm _).trans (by simpa using hperm)
  · rw [hhead]
  · rw [remove_node_num_nodes]

/-! Concrete scorers and batches used by witnesses and counterexamples. -/

/-- A contract-conforming scorer assigning every node the score zero. -/
def constScorer : PygData ℤ → List ℤ := fun g => List.replicate g.num_nodes 0

/-- A contract-conforming scorer that scores the last node highest on
three-node batches and the first node highest on two-node batches. -/
def exScorer : PygData ℤ → List ℤ := fun g =>
  if g.num_nodes = 3 then [0, 0, 1]
  else if g.num_nodes = 2 then [1, 0]
  else List.replicate g.num_nodes 0

/-- A three-node batch with one edge per unordered pair of nodes. -/
def exG : PygData ℤ :=
  { num_nodes := 3, edge_index := [(0, 1), (0, 2), (1, 2)], edge_attr := [10, 20, 30] }

/-- The residual batch returned by the from-scratch call of `create_plan`
on `exG` with `exScorer`: node 1 removed, nodes 0 and 2 compacted to 0, 1. -/
def exRes : PygData ℤ :=
  { num_nodes := 2, edge_index := [(0, 1)], edge_attr := [20] }

/-- Position of the first occurrence of `x` in `l`. -/
def firstIndexOf (l : List Nat) (x : Nat) : Nat := l.findIdx (fun y => decide (y = x))

lemma constScorer_contract : ∀ h : PygData ℤ, (constScorer h).length = h.num_nodes := by
  intro h; simp [constScorer]

lemma exScorer_contract : ∀ h : PygData ℤ, (exScorer h).length = h.num_nodes := by
  intro h
  unfold exScorer
  by_cases h3 : h.num_nodes = 3
  · simp [h3]
  · by_cases h2 : h.num_nodes = 2
    · simp [h3, h2]
    · simp [h3, h2]

/-- C1: for every graph batch with `k ≥ 1` nodes and every scorer honoring
the declared one-score-per-node interface, the greedy peel `create_plan`
returns a building order of length exactly `k` containing each original
node identifier `0 .. k-1` exactly once, together with a residual batch
equal to the untouched original batch with the building order's first
element (the last-removed node, identified by its original index) removed,
hence having `k - 1` nodes. -/
theorem c1_create_plan_full_order [LinearOrder β] (scorer : PygData α → List β)
    (hs : ∀ h, (scorer h).length = h.num_nodes) (g : PygData α)
    (hk : 1 ≤ g.num_nodes) :
    ∃ bo res, create_plan scorer g = some (bo, res) ∧
      bo.length = g.num_nodes ∧ bo.Perm (List.range g.num_nodes) ∧
      res = remove_node_and_edges g (bo.headD 0) ∧
      res.num_nodes = g.num_nodes - 1 :=
  create_plan_spec scorer hs g hk

/-- Witness for C1 at the concrete scorer `constScorer` and batch `exG`. -/
theorem c1_create_plan_full_order_witness :
    (∀ h : PygData ℤ, (constScorer h).length = h.num_nodes) ∧ 1 ≤ exG.num_nodes ∧
    (∃ bo res, create_plan constScorer exG = some (bo, res) ∧
      bo.length = exG.num_nodes ∧ bo.Perm (List.range exG.num_nodes) ∧
      res = remove_node_and_edges exG (bo.headD 0) ∧
      res.num_nodes = exG.num_nodes - 1) :=
  ⟨constScorer_contract, by decide,
    c1_create_plan_full_order constScorer constScorer_contract exG (by decide)⟩

/-- C10: the logistic transform applied to the scorer's raw logits is
strictly monotone, so the argmax of the per-node probabilities equals the
argmax of the raw logits at every step of the greedy peel, and removing the
sigmoid step leaves both the building order and the residual batch of
`create_plan` unchanged, for every model and every batch. -/
theorem c10_sigmoid_step_redundant (model : PygData α → List ℝ) (g : PygData α) :
    create_plan_from_logits model g = create_plan model g := by
  unfold create_plan_from_logits
  exact create_plan_congr _ _ (fun d => argmaxIdx_map sigmoid_strictMono (model d)) g

/-- C4 (counterexample): the claim that the incremental call's building
order always agrees with the prior from-scratch order on the relative
order of the not-yet-removed objects is false.  With `exScorer` (which
honors the one-score-per-node contract) the from-scratch call on `exG`
builds `[1, 0, 2]` (object 0 before object 2), while the incremental call
on the returned residual `exRes` builds compacted order `[1, 0]`, i.e.
original objects `[2, 0]` (object 2 before object 0) after mapping the
compacted indices back across the removed node 1. -/
theorem c4_counterexample :
    create_plan exScorer exG = some ([1, 0, 2], exRes) ∧
    create_plan exScorer exRes =
      some ([1, 0], { num_nodes := 1, edge_index := [], edge_attr := [] }) ∧
    [1, 0].map (fun j => if j < 1 then j else j + 1) = [2, 0] ∧
    firstIndexOf [1, 0, 2] 0 < firstIndexOf [1, 0, 2] 2 ∧
    ¬ firstIndexOf [2, 0] 0 < firstIndexOf [2, 0] 2 := by
  decide

/-- C4 (amended): calling `create_plan` incrementally on the residual batch
returned by a prior call performs exactly the same greedy peel a
from-scratch call would perform on that residual batch, which is the
original graph with the first-built node removed and hence has one node
fewer: it succeeds and returns a building order of length `k - 1` covering
the residual's compacted node identifiers exactly once.  (Agreement with
the prior order's relative object order does not hold for every scorer.) -/
theorem c4_incremental_peels_one_node_fewer [LinearOrder β]
    (scorer : PygData α → List β) (hs : ∀ h, (scorer h).length = h.num_nodes)
    (g : PygData α) (hk : 2 ≤ g.num_nodes) :
    ∃ bo res, create_plan scorer g = some (bo, res) ∧
      res.num_nodes = g.num_nodes - 1 ∧
      ∃ bo2 res2, create_plan scorer res = some (bo2, res2) ∧
        bo2.length = g.num_nodes - 1 ∧
        bo2.Perm (List.range (g.num_nodes - 1)) := by
  obtain ⟨bo, res, h1, h2, h3, h4, h5⟩ := create_plan_spec scorer hs g (by omega)
  obtain ⟨bo2, res2, g1, g2, g3, g4, g5⟩ := create_plan_spec scorer hs res (by omega)
  exact ⟨bo, res, h1, h5, bo2, res2, g1, by rw [g2, h5], by rw [h5] at g3; exact g3⟩

/-- Witness for the amended C4 at `constScorer` and `exG`. -/
theorem c4_incremental_peels_one_node_fewer_witness :
    (∀ h : PygData ℤ, (constScorer h).length = h.num_nodes) ∧ 2 ≤ exG.num_nodes ∧
    (∃ bo res, create_plan constScorer exG = some (bo, res) ∧
      res.num_nodes = exG.num_nodes - 1 ∧
      ∃ bo2 res2, create_plan constScorer res = some (bo2, res2) ∧
        bo2.length = exG.num_nodes - 1 ∧
        bo2.Perm (List.range (exG.num_nodes - 1))) :=
  ⟨constScorer_contract, by decide,
    c4_incremental_peels_one_node_fewer constScorer constScorer_contract exG (by decide)⟩

/-!
Dataset generator (`generate_dataset.py`).  Randomness is modelled by
explicit oracles: a stream of rational draws for `random.uniform` and a
stream of selection indices for `random.choice`.  Scene-file records are
modelled as an inductive type holding exactly the data the two line
writers emit; coordinates are rationals.
-/

/-- Cube side length constant of `generate_dataset.py` (0.8). -/
def CUBE_SIZE : ℚ := 4 / 5

/-- One line of an emitted scene file: either an absolute-pose base record
(`write_object_base`) or a parent-relative stacked record
(`write_object_stacked`, carrying the translation and Z-rotation angle). -/
inductive GRecord where
  | base (id : Nat) (x y z : ℚ)
  | stacked (id parent : Nat) (tx ty tz : ℚ) (angle : ℤ)
deriving DecidableEq

/-- Object identifier written in a record. -/
def recId : GRecord → Nat
  | .base i _ _ _ => i
  | .stacked i _ _ _ _ _ => i

/-- Whether the record is an absolute-pose (base) record. -/
def isBaseRec : GRecord → Bool
  | .base _ _ _ _ => true
  | .stacked _ _ _ _ _ _ => false

/-- The (child, parent) pairs of the parent-relative records, in file order. -/
def stackedEdges (rs : List GRecord) : List (Nat × Nat) :=
  rs.filterMap (fun r => match r with
    | .base _ _ _ _ => none
    | .stacked i p _ _ _ _ => some (i, p))

/-- Embedding of the file body written by one iteration of
`generate_pattern1` (generate_dataset.py): `x_offsets`/`y_offsets` are the
two `random.uniform(3, -3)` draws, `u2`/`u3` the `random.uniform(0.5, 0)`
draws added into the x positions of base objects 2 and 3, and `uz` the
`random.uniform(0.5, 0)` draw added into the shared stacking height `tz`.
Bases 1, 2, 3 are written as absolute-pose records at height 0; objects
4, 5, 6 are written as parent-relative records on parents 1, 2, 4 with
translation `(CUBE_SIZE/2, 0, CUBE_SIZE + uz)` and angle 0. -/
def generate_pattern1_file (x_offsets y_offsets u2 u3 uz : ℚ) : List GRecord :=
  [ .base 1 x_offsets y_offsets 0,
    .base 2 (x_offsets + u2 + CUBE_SIZE) y_offsets 0,
    .base 3 (x_offsets + u3 + CUBE_SIZE) y_offsets 0,
    .stacked 4 1 (CUBE_SIZE / 2) 0 (CUBE_SIZE + uz) 0,
    .stacked 5 2 (CUBE_SIZE / 2) 0 (CUBE_SIZE + uz) 0,
    .stacked 6 4 (CUBE_SIZE / 2) 0 (CUBE_SIZE + uz) 0 ]

/-- C6 (counterexample): a pattern-1 file does not contain exactly 2
absolute-pose (base) records: at any concrete draws it contains 3 of them
(objects 1, 2 and 3 are all written by `write_object_base`). -/
theorem c6_counterexample :
    ((generate_pattern1_file 0 0 0 0 0).filter isBaseRec).length = 3 ∧
    ¬ ((generate_pattern1_file 0 0 0 0 0).filter isBaseRec).length = 2 := by
  decide

/-- C6 (amended): every file emitted by the pattern-1 generator describes
an assembly of 6 objects, with identifiers 1..6 each written exactly once,
built from exactly 3 base objects (absolute-pose records, ids 1, 2, 3),
the remaining objects written as parent-relative records according to the
fixed parent graph 4-on-1, 5-on-2, 6-on-4. -/
theorem c6_pattern1_structure (x_offsets y_offsets u2 u3 uz : ℚ) :
    (generate_pattern1_file x_offsets y_offsets u2 u3 uz).length = 6 ∧
    (generate_pattern1_file x_offsets y_offsets u2 u3 uz).map recId =
      [1, 2, 3, 4, 5, 6] ∧
    ((generate_pattern1_file x_offsets y_offsets u2 u3 uz).filter isBaseRec).map recId =
      [1, 2, 3] ∧
    stackedEdges (generate_pattern1_file x_offsets y_offsets u2 u3 uz) =
      [(4, 1), (5, 2), (6, 4)] := by
  refine ⟨rfl, rfl, rfl, rfl⟩

/-!
`generate_instance` (generate_dataset.py): repeatedly pick a random
grouping among those still fully composed of remaining objects, record it
as a stack, remove its objects, and drop every grouping touching them.
`cs` is the `random.choice` oracle: at step `t` the chosen index into the
current grouping list is `cs t` reduced modulo its length.  The `while
objects:` loop removes at least one object per iteration, so `num_objects`
steps of fuel make the recursion structural without changing behavior.
-/

/-- All non-empty combinations of sizes 1..n of the object list, grouped by
size, mirroring `chain(*[combinations(objects, i) for i in range(1, n+1)])`. -/
def all_groupings (objects : List Nat) : List (List Nat) :=
  (List.range objects.length).flatMap (fun i => List.sublistsLen (i + 1) objects)

/-- The `while objects:` loop of `generate_instance`. -/
def generate_instance_loop (cs : Nat → Nat) :
    Nat → Nat → List Nat → List (List Nat) → List (List Nat) → List (List Nat)
  | 0, _, _, _, acc => acc
  | fuel + 1, t, objects, groupings, acc =>
    if objects.isEmpty then acc
    else
      let group := groupings.getD (cs t % groupings.length) []
      let objects' := group.foldl (fun os obj => os.erase obj) objects
      let groupings' := group.foldl
        (fun gs obj => gs.filter (fun g => decide (obj ∉ g))) groupings
      generate_instance_loop cs fuel (t + 1) objects' groupings' (acc ++ [group])

/-- Embedding of `generate_instance` (generate_dataset.py) for a given
object count: objects are `1 .. num_objects`. -/
def generate_instance (cs : Nat → Nat) (num_objects : Nat) : List (List Nat) :=
  let objects := List.range' 1 num_objects
  generate_instance_loop cs num_objects 0 objects (all_groupings objects) []

lemma foldl_erase_perm : ∀ (group objects : List Nat), objects.Nodup →
    group.Nodup → (∀ x ∈ group, x ∈ objects) →
    objects.Perm (group ++ group.foldl (fun os obj => os.erase obj) objects) := by
  intro group
  induction group with
  | nil => intro objects _ _ _; simp
  | cons a γ ih =>
    intro objects hno hng hsub
    have ha : a ∈ objects := hsub a (by simp)
    have hgerase : ∀ x ∈ γ, x ∈ objects.erase a := by
      intro x hx
      have hxa : x ≠ a := by
        intro hxeq
        subst hxeq
        exact (List.nodup_cons.mp hng).1 hx
      exact (List.mem_erase_of_ne hxa).mpr (hsub x (by simp [hx]))
    have hrec := ih (objects.erase a) (hno.erase a) (List.nodup_cons.mp hng).2 hgerase
    have hstep := List.perm_cons_erase ha
    have : objects.Perm (a :: (γ ++ γ.foldl (fun os obj => os.erase obj) (objects.erase a))) :=
      hstep.trans (List.Perm.cons a hrec)
    simpa using this

lemma foldl_filter_mem : ∀ (group : List Nat) (gs : List (List Nat)) (g : List Nat),
    (g ∈ group.foldl (fun gs obj => gs.filter (fun h => decide (obj ∉ h))) gs ↔
      g ∈ gs ∧ ∀ obj ∈ group, obj ∉ g) := by
  intro group
  induction group with
  | nil => intro gs g; simp
  | cons a γ ih =>
    intro gs g
    simp only [List.foldl_cons, ih, List.mem_filter, decide_eq_true_eq, List.mem_cons]
    constructor
    · rintro ⟨⟨h1, h2⟩, h3⟩
      exact ⟨h1, by rintro obj (rfl | hobj); exact h2; exact h3 obj hobj⟩
    · rintro ⟨h1, h2⟩
      exact ⟨⟨h1, h2 a (Or.inl rfl)⟩, fun obj hobj => h2 obj (Or.inr hobj)⟩

lemma generate_instance_loop_spec (cs : Nat → Nat) :
    ∀ (fuel t : Nat) (objects : List Nat) (groupings acc : List (List Nat)),
      objects.Nodup →
      objects.length ≤ fuel →
      (∀ g ∈ groupings, g ≠ [] ∧ g.Nodup ∧ ∀ x ∈ g, x ∈ objects) →
      (∀ x ∈ objects, [x] ∈ groupings) →
      ∃ added, generate_instance_loop cs fuel t objects groupings acc = acc ++ added ∧
        (added.flatMap (fun g => g)).Perm objects := by
  intro fuel
  induction fuel with
  | zero =>
    intro t objects groupings acc hno hlen _ _
    have : objects = [] := List.length_eq_zero.mp (by omega)
    subst this
    exact ⟨[], by simp [generate_instance_loop], by simp⟩
  | succ fuel ih =>
    intro t objects groupings acc hno hlen hg hsingle
    by_cases hemp : objects.isEmpty
    · have : objects = [] := List.isEmpty_iff.mp hemp
      subst this
      exact ⟨[], by simp [generate_instance_loop], by simp⟩
    · have hobj_ne : objects ≠ [] := fun h => hemp (by simp [h])
      have hgs_ne : groupings ≠ [] := by
        obtain ⟨x, hx⟩ := List.exists_mem_of_ne_nil objects hobj_ne
        intro h
        have := hsingle x hx
        simp [h] at this
      have hgs_pos : 0 < groupings.length := List.length_pos.mpr hgs_ne
      have hidx : cs t % groupings.length < groupings.length := Nat.mod_lt _ hgs_pos
      set group := groupings.getD (cs t % groupings.length) [] with hgroup_def
      have hgroup_mem : group ∈ groupings := by
        rw [hgroup_def, List.getD_eq_getElem _ _ hidx]
        exact List.getElem_mem hidx
      obtain ⟨hgne, hgnd, hgsub⟩ := hg group hgroup_mem
      set objects' := group.foldl (fun os obj => os.erase obj) objects with hobjects'
      have hperm : objects.Perm (group ++ objects') := foldl_erase_perm group objects hno hgnd hgsub
      have hnodup_app : (group ++ objects').Nodup := hperm.nodup_iff.mp hno
      have hno' : objects'.Nodup := (List.nodup_append.mp hnodup_app).2.1
      have hdisj : group.Disjoint objects' := (List.nodup_append.mp hnodup_app).2.2
      have hmem' : ∀ x, x ∈ objects' → x ∈ objects ∧ x ∉ group := by
        intro x hx
        refine ⟨hperm.mem_iff.mpr (by simp [hx]), fun hxg => hdisj hxg hx⟩
      have hmem'' : ∀ x, x ∈ objects → x ∉ group → x ∈ objects' := by
        intro x hx hxg
        have := hperm.mem_iff.mp hx
        simp only [List.mem_append] at this
        tauto
      have hlen' : objects'.length ≤ fuel := by
        have h1 := hperm.length_eq
        have h2 : 0 < group.length := List.length_pos.mpr hgne
        simp only [List.length_append] at h1
        omega
      set groupings' := group.foldl
        (fun gs obj => gs.filter (fun g => decide (obj ∉ g))) groupings with hgroupings'
      have hg' : ∀ g ∈ groupings', g ≠ [] ∧ g.Nodup ∧ ∀ x ∈ g, x ∈ objects' := by
        intro g hgmem
        rw [hgroupings', foldl_filter_mem] at hgmem
        obtain ⟨hgmem0, hgavoid⟩ := hgmem
        obtain ⟨h1, h2, h3⟩ := hg g hgmem0
        refine ⟨h1, h2, fun x hx => ?_⟩
        refine hmem'' x (h3 x hx) (fun hxg => hgavoid x hxg hx)
      have hsingle' : ∀ x ∈ objects', [x] ∈ groupings' := by
        intro x hx
        obtain ⟨hxobj, hxg⟩ := hmem' x hx
        rw [hgroupings', foldl_filter_mem]
        refine ⟨hsingle x hxobj, fun obj hobj hmem => ?_⟩
        simp only [List.mem_singleton] at hmem
        subst hmem
        exact hxg hobj
      obtain ⟨added', heq', hperm'⟩ :=
        ih (t + 1) objects' groupings' (acc ++ [group]) hno' hlen' hg' hsingle'
      refine ⟨group :: added', ?_, ?_⟩
      · show generate_instance_loop cs (fuel + 1) t objects groupings acc = _
        simp only [generate_instance_loop, hemp, if_false]
        rw [← hobjects', ← hgroupings', ← hgroup_def, heq']
        simp
      · simp only [List.flatMap_cons]
        exact (hperm'.append_left group).trans hperm.symm

lemma nodup_flatMap_pairwise : ∀ (L : List (List Nat)),
    (L.flatMap (fun g => g)).Nodup →
    L.Pairwise (fun g₁ g₂ => ∀ x ∈ g₁, x ∉ g₂) := by
  intro L
  induction L with
  | nil => intro _; simp
  | cons g Ls ih =>
    intro h
    simp only [List.flatMap_cons, List.nodup_append] at h
    obtain ⟨h1, h2, h3⟩ := h
    refine List.Pairwise.cons ?_ (ih h2)
    intro g₂ hg₂ x hxg
    intro hxg₂
    exact h3 hxg (List.mem_flatMap.mpr ⟨g₂, hg₂, hxg₂⟩)

/-- C7: for every object count `n ≥ 1` and every sequence of random
choices, `generate_instance` returns stacks that are pairwise disjoint and
whose union, with multiplicity, is exactly the object set `1 .. n`: the
concatenation of the stacks is a permutation of `[1, ..., n]`, so every
object belongs to exactly one stack. -/
theorem c7_generate_instance_partitions (cs : Nat → Nat) (n : Nat) (hn : 1 ≤ n) :
    ((generate_instance cs n).flatMap (fun g => g)).Perm (List.range' 1 n) ∧
    (generate_instance cs n).Pairwise (fun g₁ g₂ => ∀ x ∈ g₁, x ∉ g₂) ∧
    ∀ x, x ∈ (generate_instance cs n).flatMap (fun g => g) ↔ 1 ≤ x ∧ x ≤ n := by
  have hno : (List.range' 1 n).Nodup := List.nodup_range' 1 n
  have hlen : (List.range' 1 n).length ≤ n := by
    rw [List.length_range']
  have hg : ∀ g ∈ all_groupings (List.range' 1 n),
      g ≠ [] ∧ g.Nodup ∧ ∀ x ∈ g, x ∈ List.range' 1 n := by
    intro g hgmem
    simp only [all_groupings, List.mem_flatMap, List.mem_range] at hgmem
    obtain ⟨i, _, hsub⟩ := hgmem
    rw [List.mem_sublistsLen] at hsub
    obtain ⟨hsl, hlen⟩ := hsub
    refine ⟨?_, hsl.nodup hno, fun x hx => hsl.subset hx⟩
    intro hnil
    rw [hnil] at hlen
    simp at hlen
  have hsingle : ∀ x ∈ List.range' 1 n, [x] ∈ all_groupings (List.range' 1 n) := by
    intro x hx
    simp only [all_groupings, List.mem_flatMap, List.mem_range]
    refine ⟨0, ?_, ?_⟩
    · rw [List.length_range']
      omega
    · rw [List.mem_sublistsLen]
      exact ⟨List.singleton_sublist.mpr hx, rfl⟩
  obtain ⟨added, heq, hperm⟩ :=
    generate_instance_loop_spec cs n 0 (List.range' 1 n)
      (all_groupings (List.range' 1 n)) [] hno hlen hg hsingle
  have hres : generate_instance cs n = added := by
    rw [generate_instance]
    simpa using heq
  rw [hres]
  refine ⟨hperm, ?_, ?_⟩
  · exact nodup_flatMap_pairwise added (hperm.nodup_iff.mpr hno)
  · intro x
    rw [hperm.mem_iff, List.mem_range'_1]
    omega

/-- Witness for C7 at the constant choice oracle and `n = 2`. -/
theorem c7_generate_instance_partitions_witness :
    1 ≤ 2 ∧
    (((generate_instance (fun _ => 0) 2).flatMap (fun g => g)).Perm (List.range' 1 2) ∧
    (generate_instance (fun _ => 0) 2).Pairwise (fun g₁ g₂ => ∀ x ∈ g₁, x ∉ g₂) ∧
    ∀ x, x ∈ (generate_instance (fun _ => 0) 2).flatMap (fun g => g) ↔ 1 ≤ x ∧ x ≤ 2) :=
  ⟨by decide, c7_generate_instance_partitions (fun _ => 0) 2 (by decide)⟩

/-!
`generate_unique_numbers` (generate_dataset.py): keep drawing uniform
values, adding a draw only when it is at least 0.2 away from every value
collected so far, until `n` values are collected.  `rnd` is the
`random.uniform(start, end)` oracle (`rnd t` is the `t`-th draw); since
`random.uniform` works with its endpoints in either order, each draw lies
between `min start end` and `max start end`.  The loop has no a-priori
iteration bound (for unlucky draws, or an interval too small for `n`
spaced values, it never terminates), so it is modelled with fuel counting
draws; `none` means the fuel ran out with the loop still running. -/

def generate_unique_numbers_loop (rnd : Nat → ℚ) (n : Nat) :
    Nat → Nat → List ℚ → Option (List ℚ)
  | 0, _, acc => if acc.length < n then none else some acc
  | fuel + 1, t, acc =>
    if acc.length < n then
      let number := rnd t
      if acc.all (fun existing => decide ((1 : ℚ) / 5 ≤ |number - existing|)) then
        generate_unique_numbers_loop rnd n fuel (t + 1) (acc ++ [number])
      else
        generate_unique_numbers_loop rnd n fuel (t + 1) acc
    else some acc

/-- Embedding of `generate_unique_numbers(n, start, end)`; the collected
set is modelled as a list of (automatically pairwise-distinct) values,
and `list(set)` guarantees no ordering, so no order is asserted. -/
def generate_unique_numbers (rnd : Nat → ℚ) (n : Nat) (fuel : Nat) : Option (List ℚ) :=
  generate_unique_numbers_loop rnd n fuel 0 []

lemma generate_unique_numbers_loop_spec (rnd : Nat → ℚ) (n : Nat) (a b : ℚ)
    (hr : ∀ t, min a b ≤ rnd t ∧ rnd t ≤ max a b) :
    ∀ (fuel t : Nat) (acc l : List ℚ),
      acc.length ≤ n →
      (∀ x ∈ acc, min a b ≤ x ∧ x ≤ max a b) →
      acc.Pairwise (fun x y => (1 : ℚ) / 5 ≤ |x - y|) →
      generate_unique_numbers_loop rnd n fuel t acc = some l →
      l.length = n ∧ (∀ x ∈ l, min a b ≤ x ∧ x ≤ max a b) ∧
        l.Pairwise (fun x y => (1 : ℚ) / 5 ≤ |x - y|) := by
  intro fuel
  induction fuel with
  | zero =>
    intro t acc l hlen hbound hpair heq
    simp only [generate_unique_numbers_loop] at heq
    by_cases hlt : acc.length < n
    · simp [hlt] at heq
    · simp only [hlt, if_false, Option.some.injEq] at heq
      subst heq
      exact ⟨by omega, hbound, hpair⟩
  | succ fuel ih =>
    intro t acc l hlen hbound hpair heq
    simp only [generate_unique_numbers_loop] at heq
    by_cases hlt : acc.length < n
    · simp only [hlt, if_true] at heq
      by_cases hall : acc.all (fun existing => decide ((1 : ℚ) / 5 ≤ |rnd t - existing|))
      · rw [if_pos hall] at heq
        refine ih (t + 1) (acc ++ [rnd t]) l ?_ ?_ ?_ heq
        · simp only [List.length_append, List.length_singleton]
          omega
        · intro x hx
          simp only [List.mem_append, List.mem_singleton] at hx
          rcases hx with hx | rfl
          · exact hbound x hx
          · exact hr t
        · rw [List.pairwise_append]
          refine ⟨hpair, List.pairwise_singleton _ _, ?_⟩
          intro x hx y hy
          simp only [List.mem_singleton] at hy
          subst hy
          have := (List.all_eq_true.mp hall) x hx
          rw [decide_eq_true_eq] at this
          rwa [abs_sub_comm] at this
      · rw [if_neg hall] at heq
        exact ih (t + 1) acc l (by omega) hbound hpair heq
    · simp only [hlt, if_false, Option.some.injEq] at heq
      subst heq
      exact ⟨by omega, hbound, hpair⟩

/-- C8: whenever `generate_unique_numbers(n, a, b)` returns, it returns
exactly `n` values, each lying between `a` and `b` taken in either order
of the endpoints, and every pair of returned values differs by at least
0.2 in absolute value.  (The retry loop itself is unbounded: for draws
that never satisfy the spacing requirement it simply keeps drawing, which
the fuel models; the claim's guarantees hold for every actual return.) -/
theorem c8_generate_unique_numbers_spec (rnd : Nat → ℚ) (n : Nat) (a b : ℚ)
    (fuel : Nat) (l : List ℚ)
    (hr : ∀ t, min a b ≤ rnd t ∧ rnd t ≤ max a b)
    (hres : generate_unique_numbers rnd n fuel = some l) :
    l.length = n ∧ (∀ x ∈ l, min a b ≤ x ∧ x ≤ max a b) ∧
      l.Pairwise (fun x y => (1 : ℚ) / 5 ≤ |x - y|) :=
  generate_unique_numbers_loop_spec rnd n a b hr fuel 0 [] l
    (by simp) (by simp) (by simp) hres

/-- The draw oracle used by the C8 witness: 0 then always 1. -/
def exRnd : Nat → ℚ := fun t => if t = 0 then 0 else 1

/-- Witness for C8: two draws from the interval given as `(1, 0)`
(endpoints in decreasing order, as in the `generate_unique_numbers(len, 3, -3)`
call sites) produce the two-element result `[0, 1]` with the stated bounds
and spacing. -/
theorem c8_generate_unique_numbers_spec_witness :
    (∀ t, min (1 : ℚ) 0 ≤ exRnd t ∧ exRnd t ≤ max (1 : ℚ) 0) ∧
    generate_unique_numbers exRnd 2 2 = some [0, 1] ∧
    ([0, 1] : List ℚ).length = 2 ∧
    (∀ x ∈ ([0, 1] : List ℚ), min (1 : ℚ) 0 ≤ x ∧ x ≤ max (1 : ℚ) 0) ∧
    ([0, 1] : List ℚ).Pairwise (fun x y => (1 : ℚ) / 5 ≤ |x - y|) := by
  have hr : ∀ t, min (1 : ℚ) 0 ≤ exRnd t ∧ exRnd t ≤ max (1 : ℚ) 0 := by
    intro t
    unfold exRnd
    by_cases ht : t = 0 <;> simp [ht]
  have hres : generate_unique_numbers exRnd 2 2 = some [0, 1] := by
    norm_num [generate_unique_numbers, generate_unique_numbers_loop, exRnd]
  have := c8_generate_unique_numbers_spec exRnd 2 1 0 2 [0, 1] hr hres
  exact ⟨hr, hres, this⟩

/-!
Scene Graph Processor (`graph_processor.py`).  A networkx `DiGraph` is
embedded as its edge list in insertion order: one entry per directed edge,
keyed by the ordered node pair, carrying the edge's attribute dictionary
(`add_edge` updates the attributes in place when the edge already exists,
and appends otherwise; node bookkeeping is omitted because every claim
concerns edges).  Edge attribute dictionaries are association lists from
strings; the processor only ever stores the single key "weight".
Coordinates are rationals.
-/

/-- 3-D position/offset vector. -/
abbrev Vec3 := ℚ × ℚ × ℚ

/-- Componentwise difference `a - b` of numpy position arrays. -/
def vsub (a b : Vec3) : Vec3 := (a.1 - b.1, a.2.1 - b.2.1, a.2.2 - b.2.2)

/-- Componentwise negation of a numpy array. -/
def vneg (a : Vec3) : Vec3 := (-a.1, -a.2.1, -a.2.2)

/-- Vertical (Z) component `w[2]` of a vector. -/
def vz (a : Vec3) : ℚ := a.2.2

/-- The only exception kind relevant to `get_relative_position`. -/
inductive PyErr where
  | keyError
deriving DecidableEq

/-- A Python attribute dictionary as an association list. -/
abbrev AttrDict (α : Type) := List (String × α)

/-- `d[k]`: the value under key `k`, or a raised `KeyError`. -/
def dictGet (d : AttrDict α) (k : String) : Except PyErr α :=
  match d.find? (fun p => decide (p.1 = k)) with
  | some p => Except.ok p.2
  | none => Except.error PyErr.keyError

/-- The one-entry attribute dictionary `weight=w` stored by the processor. -/
def wdict (w : Vec3) : AttrDict Vec3 := [("weight", w)]

/-- A networkx directed graph, embedded as its keyed edge list. -/
structure DiGraph (δ : Type) where
  edges : List ((Nat × Nat) × δ)
deriving DecidableEq

/-- `G.has_edge(u, v)`. -/
def hasEdge (G : DiGraph δ) (u v : Nat) : Bool :=
  G.edges.any (fun e => decide (e.1 = (u, v)))

/-- `G.get_edge_data(u, v)`: the attribute data of edge `(u, v)`, or the
default `None`; never raises (missing nodes also yield the default). -/
def get_edge_data (G : DiGraph δ) (u v : Nat) : Option δ :=
  (G.edges.find? (fun e => decide (e.1 = (u, v)))).map (fun e => e.2)

/-- `G.add_edge(u, v, data)`: update the data in place when the edge
exists, append the edge otherwise. -/
def add_edge (G : DiGraph δ) (u v : Nat) (d : δ) : DiGraph δ :=
  if hasEdge G u v then
    ⟨G.edges.map (fun e => if e.1 = (u, v) then ((u, v), d) else e)⟩
  else ⟨G.edges ++ [((u, v), d)]⟩

/-- `G.remove_edge(u, v)`. -/
def remove_edge (G : DiGraph δ) (u v : Nat) : DiGraph δ :=
  ⟨G.edges.filter (fun e => decide (e.1 ≠ (u, v)))⟩

/-- `G.clear_edges()`: edges are dropped (nodes are kept, which the
embedding does not track). -/
def clear_edges (_G : DiGraph δ) : DiGraph δ := ⟨[]⟩

/-- Embedding of `get_relative_position` (graph_processor.py).  The body
queries `get_edge_data`; a present edge yields its `'weight'` attribute,
an absent edge prints a diagnostic and yields `None`.  The surrounding
`try/except KeyError` turns any `KeyError` raised inside the body (in
particular by `edge_data['weight']`; `get_edge_data` itself catches its
own `KeyError` and returns the default) into a printed diagnostic and
`None`.  The returned value models the printed diagnostics implicitly:
`Except.ok none` is the reported-absent result. -/
def get_relative_position (G : DiGraph (AttrDict α)) (start_node end_node : Nat) :
    Except PyErr (Option α) :=
  let body : Except PyErr (Option α) :=
    match get_edge_data G start_node end_node with
    | some edge_data =>
      match dictGet edge_data "weight" with
      | Except.ok relative_pos => Except.ok (some relative_pos)
      | Except.error e => Except.error e
    | none => Except.ok none
  match body with
  | Except.error PyErr.keyError => Except.ok none
  | r => r

/-- C9: for every graph and every pair of node identifiers,
`get_relative_position` returns the stored edge weight when a directed
edge from the start node to the end node exists, and otherwise (no
connecting edge, or one or both nodes absent so that no edge data is
found) yields the reported absent result `None`; in every case it returns
normally — no exception propagates to the caller. -/
theorem c9_get_relative_position_total (G : DiGraph (AttrDict α)) (s e : Nat) :
    (∀ d w, get_edge_data G s e = some d → dictGet d "weight" = Except.ok w →
      get_relative_position G s e = Except.ok (some w)) ∧
    (get_edge_data G s e = none → get_relative_position G s e = Except.ok none) ∧
    (∃ o, get_relative_position G s e = Except.ok o) := by
  refine ⟨?_, ?_, ?_⟩
  · intro d w hd hw
    simp [get_relative_position, hd, hw]
  · intro hd
    simp [get_relative_position, hd]
  · match hd : get_edge_data G s e with
    | some d =>
      match hw : dictGet d "weight" with
      | Except.ok w => exact ⟨some w, by simp [get_relative_position, hd, hw]⟩
      | Except.error PyErr.keyError => exact ⟨none, by simp [get_relative_position, hd, hw]⟩
    | none => exact ⟨none, by simp [get_relative_position, hd]⟩

/-- The directed graph used by the C9 witness: a single edge `0 → 1` with
weight `(1, 2, 3)`. -/
def exG9 : DiGraph (AttrDict Vec3) := ⟨[((0, 1), wdict (1, 2, 3))]⟩

/-- Witness for C9 on `exG9`: the stored weight is returned along the
edge, and the reverse (absent) direction yields the absent result. -/
theorem c9_get_relative_position_total_witness :
    get_edge_data exG9 0 1 = some (wdict (1, 2, 3)) ∧
    dictGet (wdict (1, 2, 3)) "weight" = Except.ok (1, 2, 3) ∧
    get_relative_position exG9 0 1 = Except.ok (some (1, 2, 3)) ∧
    get_edge_data exG9 1 0 = none ∧
    get_relative_position exG9 1 0 = Except.ok none := by
  refine ⟨rfl, rfl, ?_, rfl, ?_⟩
  · exact (c9_get_relative_position_total exG9 0 1).1 (wdict (1, 2, 3)) (1, 2, 3) rfl rfl
  · exact (c9_get_relative_position_total exG9 1 0).2.1 rfl

/-- The per-node-id shift applied by `correct_graph_edge_indices`:
decrement when positive, keep 0. -/
def shiftIdx (u : Nat) : Nat := if u > 0 then u - 1 else u

/-- The per-edge rewrite of `correct_graph_edge_indices`: shift both
endpoints, keep the attributes. -/
def shiftEdge (e : (Nat × Nat) × δ) : (Nat × Nat) × δ :=
  ((shiftIdx e.1.1, shiftIdx e.1.2), e.2)

/-- Embedding of `correct_graph_edge_indices` (graph_processor.py) on one
graph (the Python function maps this over a list of graphs): collect every
edge with shifted endpoints and original attributes, clear the edges, and
re-add the shifted edges in order (`add_edge` overwrites the attributes of
an already-present key, so colliding shifted edges merge). -/
def correct_graph_edge_indices (G : DiGraph δ) : DiGraph δ :=
  let corrected_edges_with_attrs := G.edges.map shiftEdge
  corrected_edges_with_attrs.foldl (fun H e => add_edge H e.1.1 e.1.2 e.2) (clear_edges G)

/-- The graph used by the C5 counterexample: edges `(0,2)` and `(1,2)`
with distinct attributes.  Both are rewritten to the same key `(0,1)`,
so the second overwrites the first. -/
def exG5 : DiGraph ℤ := ⟨[((0, 2), 10), ((1, 2), 20)]⟩

/-- C5 (counterexample): `correct_graph_edge_indices` does not, for every
graph, rewrite every edge to its shifted key with attributes preserved:
on `exG5` the two edges collide after the shift and the result holds a
single edge carrying only the later edge's attribute. -/
theorem c5_counterexample :
    (correct_graph_edge_indices exG5).edges = [((0, 1), 20)] ∧
    exG5.edges.map shiftEdge = [((0, 1), 10), ((0, 1), 20)] ∧
    ¬ (correct_graph_edge_indices exG5).edges = exG5.edges.map shiftEdge := by
  decide

lemma hasEdge_iff_mem (G : DiGraph δ) (u v : Nat) :
    hasEdge G u v = true ↔ (u, v) ∈ G.edges.map (fun e => e.1) := by
  rw [hasEdge, List.any_eq_true]
  constructor
  · rintro ⟨e, he, hk⟩
    rw [decide_eq_true_eq] at hk
    exact List.mem_map.mpr ⟨e, he, hk⟩
  · intro hmem
    obtain ⟨e, he, hk⟩ := List.mem_map.mp hmem
    exact ⟨e, he, by rw [decide_eq_true_eq]; exact hk⟩

lemma foldl_add_edge_fresh : ∀ (es : List ((Nat × Nat) × δ)) (H : DiGraph δ),
    (es.map (fun e => e.1)).Nodup →
    (∀ k ∈ es.map (fun e => e.1), k ∉ H.edges.map (fun e => e.1)) →
    (es.foldl (fun H e => add_edge H e.1.1 e.1.2 e.2) H).edges = H.edges ++ es := by
  intro es
  induction es with
  | nil => intro H _ _; simp
  | cons e es ih =>
    intro H hnd hdisj
    rw [List.map_cons, List.nodup_cons] at hnd
    obtain ⟨hknotin, hnd'⟩ := hnd
    have hkey : e.1 ∉ H.edges.map (fun e => e.1) := hdisj e.1 (by simp)
    have hhe : hasEdge H e.1.1 e.1.2 = false := by
      rw [← Bool.not_eq_true, hasEdge_iff_mem]
      simpa using hkey
    have hstep : add_edge H e.1.1 e.1.2 e.2 = ⟨H.edges ++ [e]⟩ := by
      rw [add_edge, hhe]
      simp
    have hdisj' : ∀ k ∈ es.map (fun x => x.1),
        k ∉ (DiGraph.mk (δ := δ) (H.edges ++ [e])).edges.map (fun x => x.1) := by
      intro k hk hmem
      simp only [List.map_append, List.map_cons, List.map_nil, List.mem_append,
        List.mem_singleton] at hmem
      rcases hmem with hmem | hmem
      · exact hdisj k (by rw [List.map_cons]; exact List.mem_cons_of_mem _ hk) hmem
      · subst hmem
        exact hknotin hk
    simp only [List.foldl_cons, hstep]
    rw [ih ⟨H.edges ++ [e]⟩ hnd' hdisj']
    simp

/-!
Graph construction of `process_g_file` (graph_processor.py, the part after
parsing): for every ordered pair of resolved objects with smaller first id,
add a directed edge weighted by the position difference unless an
equal-and-opposite reverse edge already exists (a dead guard on a freshly
built graph), then normalize: every edge whose weight has negative Z is
removed and re-added reversed with negated weight.  Since the parsing
itself is regex-driven file I/O, the embedding takes the resolved position
map (a Python dict: insertion-ordered, distinct keys) as input; quantifying
over all position maps covers the graphs produced for all scene files.
-/

/-- Lookup `object_positions[i]` in the resolved position map. -/
def findPos (positions : List (Nat × Vec3)) (i : Nat) : Option Vec3 :=
  (positions.find? (fun p => decide (p.1 = i))).map (fun p => p.2)

/-- Body of the doubly nested edge-construction loop of `process_g_file`,
for outer object `s` and inner object `e`: when `s.1 < e.1`, add the edge
`s.1 → e.1` weighted `e.pos - s.pos` unless the reverse edge already holds
exactly the negated weight. -/
def addPairStep (s : Nat × Vec3) (G : DiGraph (AttrDict Vec3)) (e : Nat × Vec3) :
    DiGraph (AttrDict Vec3) :=
  if s.1 < e.1 then
    let relative_pos := vsub e.2 s.2
    if hasEdge G e.1 s.1 = false ∨
        ¬ get_edge_data G e.1 s.1 = some (wdict (vneg relative_pos)) then
      add_edge G s.1 e.1 (wdict relative_pos)
    else G
  else G

/-- Body of the normalization loop of `process_g_file`: for a snapshot edge
with weight of negative Z, remove it and add the reversed edge with negated
weight.  (If the edge had no weight attribute the Python iteration would
yield `None` and fail on `w[2]`; the construction always stores a weight,
so the error branch is unreachable and modelled as a no-op.) -/
def normStep (G : DiGraph (AttrDict Vec3)) (ed : (Nat × Nat) × AttrDict Vec3) :
    DiGraph (AttrDict Vec3) :=
  match dictGet ed.2 "weight" with
  | Except.ok w =>
    if vz w < 0 then
      add_edge (remove_edge G ed.1.1 ed.1.2) ed.1.2 ed.1.1 (wdict (vneg w))
    else G
  | Except.error _ => G

/-- Embedding of the graph-construction portion of `process_g_file`: the
double loop over the resolved position map followed by the normalization
pass over a snapshot (`list(G.edges(...))`) of the constructed edges. -/
def process_g_file_graph (positions : List (Nat × Vec3)) : DiGraph (AttrDict Vec3) :=
  let G1 := positions.foldl (fun G s => positions.foldl (addPairStep s) G) ⟨[]⟩
  G1.edges.foldl normStep G1

/-- The ordered pairs `(s, e)` with `s.1 < e.1` visited by the double loop,
in visiting order. -/
def pairsOf (ps : List (Nat × Vec3)) : List ((Nat × Vec3) × (Nat × Vec3)) :=
  ps.flatMap (fun s => (ps.filter (fun e => decide (s.1 < e.1))).map (fun e => (s, e)))

/-- The edge the construction adds for a visited pair. -/
def pairEdge (se : (Nat × Vec3) × (Nat × Vec3)) : (Nat × Nat) × AttrDict Vec3 :=
  ((se.1.1, se.2.1), wdict (vsub se.2.2 se.1.2))

/-- Whether the normalization pass flips this edge (negative-Z weight). -/
def flipB (ed : (Nat × Nat) × AttrDict Vec3) : Bool :=
  match dictGet ed.2 "weight" with
  | Except.ok w => decide (vz w < 0)
  | Except.error _ => false

/-- The weight stored in an edge's attribute dictionary (0 if absent;
only applied to edges that carry one). -/
def wOf (ed : (Nat × Nat) × AttrDict Vec3) : Vec3 :=
  match dictGet ed.2 "weight" with
  | Except.ok w => w
  | Except.error _ => (0, 0, 0)

/-- The reversed, weight-negated edge the normalization pass adds. -/
def flipE (ed : (Nat × Nat) × AttrDict Vec3) : (Nat × Nat) × AttrDict Vec3 :=
  ((ed.1.2, ed.1.1), wdict (vneg (wOf ed)))

lemma dictGet_wdict (w : Vec3) : dictGet (wdict w) "weight" = Except.ok w := rfl

/-! Restructuring the double loop into a single fold over the visited
pairs. -/

lemma foldl_inner_filter (s : Nat × Vec3) :
    ∀ (l : List (Nat × Vec3)) (G : DiGraph (AttrDict Vec3)),
      l.foldl (addPairStep s) G =
        ((l.filter (fun e => decide (s.1 < e.1))).map (fun e => (s, e))).foldl
          (fun G se => addPairStep se.1 G se.2) G := by
  intro l
  induction l with
  | nil => intro G; rfl
  | cons e l ih =>
    intro G
    simp only [List.foldl_cons, List.filter_cons]
    by_cases hse : s.1 < e.1
    · simp only [hse, decide_True, if_true, List.map_cons, List.foldl_cons]
      exact ih _
    · have hid : addPairStep s G e = G := by
        simp [addPairStep, hse]
      simp only [hse, decide_False, if_false, hid]
      exact ih G

lemma foldl_nested_flatMap {A B C : Type} (step : C → B → C) :
    ∀ (L : List A) (f : A → List B) (G : C),
      L.foldl (fun G a => (f a).foldl step G) G = (L.flatMap f).foldl step G := by
  intro L
  induction L with
  | nil => intro f G; rfl
  | cons a L ih =>
    intro f G
    simp only [List.foldl_cons, List.flatMap_cons, List.foldl_append]
    exact ih f _

lemma build_fold_eq (ps : List (Nat × Vec3)) :
    ps.foldl (fun G s => ps.foldl (addPairStep s) G) (⟨[]⟩ : DiGraph (AttrDict Vec3)) =
      (pairsOf ps).foldl (fun G se => addPairStep se.1 G se.2) ⟨[]⟩ := by
  have hfun : (fun (G : DiGraph (AttrDict Vec3)) (s : Nat × Vec3) =>
      ps.foldl (addPairStep s) G) =
      (fun G s => ((ps.filter (fun e => decide (s.1 < e.1))).map (fun e => (s, e))).foldl
        (fun G se => addPairStep se.1 G se.2) G) := by
    funext G s
    exact foldl_inner_filter s ps G
  unfold pairsOf
  rw [← foldl_nested_flatMap]
  rw [hfun]

/-! The pair fold on a graph with ordered, fresh, distinct keys appends
exactly one edge per visited pair. -/

lemma fold_pairs_spec :
    ∀ (rest : List ((Nat × Vec3) × (Nat × Vec3))) (G : DiGraph (AttrDict Vec3)),
      (G.edges.map (fun ed => ed.1)).Nodup →
      (∀ k ∈ G.edges.map (fun ed => ed.1), k.1 < k.2) →
      (∀ se ∈ rest, se.1.1 < se.2.1) →
      (∀ se ∈ rest, (se.1.1, se.2.1) ∉ G.edges.map (fun ed => ed.1)) →
      ((rest.map (fun se => (se.1.1, se.2.1))).Nodup) →
      (rest.foldl (fun G se => addPairStep se.1 G se.2) G).edges =
        G.edges ++ rest.map pairEdge := by
  intro rest
  induction rest with
  | nil => intro G _ _ _ _ _; simp
  | cons se rest ih =>
    intro G hnd hord hro hrf hrk
    have hso : se.1.1 < se.2.1 := hro se (by simp)
    have hrev : hasEdge G se.2.1 se.1.1 = false := by
      rw [← Bool.not_eq_true, hasEdge_iff_mem]
      intro hmem
      have := hord _ hmem
      omega
    have hfwd : hasEdge G se.1.1 se.2.1 = false := by
      rw [← Bool.not_eq_true, hasEdge_iff_mem]
      exact hrf se (by simp)
    have hstep : addPairStep se.1 G se.2 =
        add_edge G se.1.1 se.2.1 (wdict (vsub se.2.2 se.1.2)) := by
      simp only [addPairStep]
      rw [if_pos hso, if_pos (Or.inl hrev)]
    have happ : add_edge G se.1.1 se.2.1 (wdict (vsub se.2.2 se.1.2)) =
        ⟨G.edges ++ [pairEdge se]⟩ := by
      rw [add_edge, hfwd]
      simp [pairEdge]
    rw [List.map_cons, List.nodup_cons] at hrk
    obtain ⟨hknotin, hrk'⟩ := hrk
    have hnd' : ((DiGraph.mk (δ := AttrDict Vec3) (G.edges ++ [pairEdge se])).edges.map
        (fun ed => ed.1)).Nodup := by
      simp only [List.map_append]
      rw [List.nodup_append]
      refine ⟨hnd, by simp, ?_⟩
      intro k hk hk2
      simp only [List.map_cons, List.map_nil, List.mem_singleton, pairEdge] at hk2
      subst hk2
      exact hrf se (by simp) hk
    have hord' : ∀ k ∈ (DiGraph.mk (δ := AttrDict Vec3) (G.edges ++ [pairEdge se])).edges.map
        (fun ed => ed.1), k.1 < k.2 := by
      intro k hk
      simp only [List.map_append, List.mem_append, List.map_cons, List.map_nil,
        List.mem_singleton, pairEdge] at hk
      rcases hk with hk | hk
      · exact hord k hk
      · subst hk; exact hso
    have hro' : ∀ se' ∈ rest, se'.1.1 < se'.2.1 := fun se' h => hro se' (by simp [h])
    have hrf' : ∀ se' ∈ rest, (se'.1.1, se'.2.1) ∉
        (DiGraph.mk (δ := AttrDict Vec3) (G.edges ++ [pairEdge se])).edges.map
          (fun ed => ed.1) := by
      intro se' h hmem
      simp only [List.map_append, List.mem_append, List.map_cons, List.map_nil,
        List.mem_singleton, pairEdge] at hmem
      rcases hmem with hmem | hmem
      · exact hrf se' (by simp [h]) hmem
      · exact hknotin (by rw [← hmem]; exact List.mem_map.mpr ⟨se', h, rfl⟩)
    simp only [List.foldl_cons, hstep, happ]
    rw [ih ⟨G.edges ++ [pairEdge se]⟩ hnd' hord' hro' hrf' hrk']
    simp

lemma pairsOf_ordered (ps : List (Nat × Vec3)) :
    ∀ se ∈ pairsOf ps, se.1.1 < se.2.1 := by
  intro se hse
  simp only [pairsOf, List.mem_flatMap, List.mem_map, List.mem_filter,
    decide_eq_true_eq] at hse
  obtain ⟨s, _, e, ⟨_, hlt⟩, rfl⟩ := hse
  exact hlt

lemma pairsOf_keys_nodup (ps : List (Nat × Vec3))
    (hnodup : (ps.map (fun p => p.1)).Nodup) :
    ((pairsOf ps).map (fun se => (se.1.1, se.2.1))).Nodup := by
  have hpsnd : ps.Nodup := List.Nodup.of_map _ hnodup
  rw [pairsOf, List.map_flatMap]
  rw [List.nodup_flatMap]
  constructor
  · intro s _
    rw [List.map_map]
    have hfk : ((ps.filter (fun e => decide (s.1 < e.1))).map (fun p => p.1)).Nodup :=
      ((List.filter_sublist ps).map (fun p => p.1)).nodup hnodup
    refine List.Nodup.map_on ?_ (hpsnd.filter _)
    intro x hx y hy hxy
    simp only [Function.comp] at hxy
    have hfst : x.1 = y.1 := by
      have := congrArg Prod.snd hxy
      simpa using this
    exact List.inj_on_of_nodup_map hfk hx hy hfst
  · have hpair : ps.Pairwise (fun a b => a.1 ≠ b.1) := List.pairwise_map.mp hnodup
    refine hpair.imp ?_
    intro a b hab
    intro x hxa hxb
    simp only [List.map_map, List.mem_map, Function.comp] at hxa hxb
    obtain ⟨ea, _, hea⟩ := hxa
    obtain ⟨eb, _, heb⟩ := hxb
    rw [← hea] at heb
    exact hab (by simpa using congrArg Prod.fst heb.symm)

lemma pairsOf_keys_mem (ps : List (Nat × Vec3)) (i j : Nat) :
    ((i, j) ∈ (pairsOf ps).map (fun se => (se.1.1, se.2.1))) ↔
      ∃ pi pj, (i, pi) ∈ ps ∧ (j, pj) ∈ ps ∧ i < j := by
  simp only [pairsOf, List.map_flatMap, List.map_map, List.mem_flatMap, List.mem_map,
    Function.comp, List.mem_filter, decide_eq_true_eq]
  constructor
  · rintro ⟨s, hs, e, ⟨he, hlt⟩, hk⟩
    obtain ⟨h1, h2⟩ := Prod.mk.injEq .. ▸ hk
    refine ⟨s.2, e.2, ?_, ?_, ?_⟩
    · rw [← h1]; simpa using hs
    · rw [← h2]; simpa using he
    · rw [← h1, ← h2]; exact hlt
  · rintro ⟨pi, pj, hi, hj, hij⟩
    exact ⟨(i, pi), hi, (j, pj), ⟨hj, hij⟩, rfl⟩

/-- Characterization of the constructed (pre-normalization) graph: one
appended edge per visited pair, in order, weighted by the position
difference. -/
lemma build_graph_edges (ps : List (Nat × Vec3))
    (hnodup : (ps.map (fun p => p.1)).Nodup) :
    (ps.foldl (fun G s => ps.foldl (addPairStep s) G)
        (⟨[]⟩ : DiGraph (AttrDict Vec3))).edges = (pairsOf ps).map pairEdge := by
  rw [build_fold_eq]
  rw [fold_pairs_spec (pairsOf ps) ⟨[]⟩ (by simp) (by simp)
    (pairsOf_ordered ps) (by simp) (pairsOf_keys_nodup ps hnodup)]
  simp

/-- Characterization of the normalization pass: as the snapshot `es` of the
constructed edges is processed (current graph = survivors `S`, unprocessed
`es`, appended flips `F`), the kept edges survive in place and every
flipped edge is re-added, reversed and weight-negated, at the end. -/
lemma norm_fold_chars :
    ∀ (es S F : List ((Nat × Nat) × AttrDict Vec3)) (G : DiGraph (AttrDict Vec3)),
      G.edges = S ++ es ++ F →
      ((S ++ es).map (fun ed => ed.1)).Nodup →
      (∀ k ∈ (S ++ es).map (fun ed => ed.1), k.1 < k.2) →
      (∀ k ∈ F.map (fun ed => ed.1), k.2 < k.1) →
      (F.map (fun ed => ed.1)).Nodup →
      (∀ k ∈ F.map (fun ed => ed.1), (k.2, k.1) ∉ es.map (fun ed => ed.1)) →
      (∀ ed ∈ es, ∃ w, ed.2 = wdict w) →
      (es.foldl normStep G).edges =
        S ++ es.filter (fun ed => !flipB ed) ++ F ++ (es.filter flipB).map flipE := by
  intro es
  induction es with
  | nil =>
    intro S F G h1 _ _ _ _ _ _
    simp only [List.foldl_nil, List.filter_nil, List.map_nil, List.append_nil]
    simpa using h1
  | cons ed es ih =>
    intro S F G h1 h2 h3 h4 h5 h6 h7
    obtain ⟨w, hw⟩ := h7 ed (by simp)
    have hdg : dictGet ed.2 "weight" = Except.ok w := by rw [hw]; exact dictGet_wdict w
    have hedkord : ed.1.1 < ed.1.2 := by
      have := h3 ed.1 (by simp)
      exact this
    have hprodeta : ((ed.1.1, ed.1.2) : Nat × Nat) = ed.1 := rfl
    -- decompose the key-nodup hypothesis
    have h2' := h2
    rw [List.map_append, List.map_cons, List.nodup_append] at h2'
    obtain ⟨hSnd, hCnd, hSdisj⟩ := h2'
    rw [List.nodup_cons] at hCnd
    obtain ⟨hednotines, hesnd⟩ := hCnd
    have hSne : ∀ x ∈ S, ¬ x.1 = ed.1 := by
      intro x hx heq
      exact hSdisj (List.mem_map.mpr ⟨x, hx, rfl⟩) (by rw [heq]; exact List.mem_cons_self _ _)
    have hesne : ∀ x ∈ es, ¬ x.1 = ed.1 := by
      intro x hx heq
      exact hednotines (heq ▸ List.mem_map.mpr ⟨x, hx, rfl⟩)
    have hFne : ∀ x ∈ F, ¬ x.1 = ed.1 := by
      intro x hx heq
      have hxk := h4 x.1 (List.mem_map.mpr ⟨x, hx, rfl⟩)
      rw [heq] at hxk
      omega
    have hsubk : ((S ++ es).map (fun e => e.1)).Sublist
        ((S ++ ed :: es).map (fun e => e.1)) :=
      (List.Sublist.append_left (List.sublist_cons_self ed es) S).map _
    by_cases hflip : vz w < 0
    · -- the edge is flipped: removed in place, reversed copy appended
      have hflipb : flipB ed = true := by simp [flipB, hdg, hflip]
      have hstep : normStep G ed =
          add_edge (remove_edge G ed.1.1 ed.1.2) ed.1.2 ed.1.1 (wdict (vneg w)) := by
        simp only [normStep, hdg]
        rw [if_pos hflip]
      have hrm : remove_edge G ed.1.1 ed.1.2 = ⟨S ++ es ++ F⟩ := by
        rw [remove_edge, h1]
        congr 1
        have hfs : S.filter (fun e => !decide (e.1 = ed.1)) = S :=
          List.filter_eq_self.mpr fun x hx => by simpa using hSne x hx
        have hfes : es.filter (fun e => !decide (e.1 = ed.1)) = es :=
          List.filter_eq_self.mpr fun x hx => by simpa using hesne x hx
        have hfF : F.filter (fun e => !decide (e.1 = ed.1)) = F :=
          List.filter_eq_self.mpr fun x hx => by simpa using hFne x hx
        simp only [hprodeta, List.filter_append, List.filter_cons]
        simp [hfs, hfes, hfF]
      have hrevnotin : ((ed.1.2, ed.1.1) : Nat × Nat) ∉
          (S ++ es ++ F).map (fun e => e.1) := by
        intro hmem
        rw [List.map_append, List.mem_append] at hmem
        rcases hmem with hmem | hmem
        · have := h3 _ (hsubk.subset hmem)
          omega
        · have := h6 _ hmem
          simp only [hprodeta] at this
          exact this (by simp)
      have hhe2 : hasEdge ⟨S ++ es ++ F⟩ ed.1.2 ed.1.1 = false := by
        rw [← Bool.not_eq_true, hasEdge_iff_mem]
        exact hrevnotin
      have hadd : add_edge (⟨S ++ es ++ F⟩ : DiGraph (AttrDict Vec3))
          ed.1.2 ed.1.1 (wdict (vneg w)) = ⟨S ++ es ++ F ++ [flipE ed]⟩ := by
        rw [add_edge, hhe2]
        simp [flipE, wOf, hdg]
      have hG' : normStep G ed = ⟨S ++ es ++ (F ++ [flipE ed])⟩ := by
        rw [hstep, hrm, hadd]
        simp
      -- hypotheses for the tail
      have h2t : ((S ++ es).map (fun ed => ed.1)).Nodup := hsubk.nodup h2
      have h3t : ∀ k ∈ (S ++ es).map (fun ed => ed.1), k.1 < k.2 :=
        fun k hk => h3 k (hsubk.subset hk)
      have h4t : ∀ k ∈ (F ++ [flipE ed]).map (fun ed => ed.1), k.2 < k.1 := by
        intro k hk
        rw [List.map_append, List.mem_append] at hk
        rcases hk with hk | hk
        · exact h4 k hk
        · simp only [List.map_cons, List.map_nil, List.mem_singleton, flipE] at hk
          subst hk
          exact hedkord
      have h5t : ((F ++ [flipE ed]).map (fun ed => ed.1)).Nodup := by
        rw [List.map_append, List.nodup_append]
        refine ⟨h5, by simp, ?_⟩
        intro k hk hk2
        simp only [List.map_cons, List.map_nil, List.mem_singleton, flipE] at hk2
        subst hk2
        have := h6 _ hk
        simp only [hprodeta] at this
        exact this (by simp)
      have h6t : ∀ k ∈ (F ++ [flipE ed]).map (fun ed => ed.1),
          (k.2, k.1) ∉ es.map (fun ed => ed.1) := by
        intro k hk
        rw [List.map_append, List.mem_append] at hk
        rcases hk with hk | hk
        · intro hmem
          exact h6 k hk (by simp [hmem])
        · simp only [List.map_cons, List.map_nil, List.mem_singleton, flipE] at hk
          subst hk
          intro hmem
          simp only [hprodeta] at hmem
          exact hednotines hmem
      have h7t : ∀ e ∈ es, ∃ w, e.2 = wdict w := fun e he => h7 e (by simp [he])
      have hrec := ih S (F ++ [flipE ed]) ⟨S ++ es ++ (F ++ [flipE ed])⟩
        (by simp) h2t h3t h4t h5t h6t h7t
      simp only [List.foldl_cons, hG', hrec, List.filter_cons, hflipb,
        Bool.not_true, if_false, if_true, List.map_cons]
      simp
    · -- the edge is kept in place
      have hflipb : flipB ed = false := by simp [flipB, hdg, hflip]
      have hstep : normStep G ed = G := by
        simp only [normStep, hdg]
        rw [if_neg hflip]
      have h1t : G.edges = (S ++ [ed]) ++ es ++ F := by
        rw [h1, List.append_cons]
      have hkeys_eq : ((S ++ [ed]) ++ es).map (fun e => e.1) =
          (S ++ ed :: es).map (fun e => e.1) := by
        rw [← List.append_cons]
      have h2t : (((S ++ [ed]) ++ es).map (fun ed => ed.1)).Nodup := by
        rw [hkeys_eq]; exact h2
      have h3t : ∀ k ∈ ((S ++ [ed]) ++ es).map (fun ed => ed.1), k.1 < k.2 := by
        rw [hkeys_eq]; exact h3
      have h6t : ∀ k ∈ F.map (fun ed => ed.1), (k.2, k.1) ∉ es.map (fun ed => ed.1) := by
        intro k hk hmem
        exact h6 k hk (by simp [hmem])
      have h7t : ∀ e ∈ es, ∃ w, e.2 = wdict w := fun e he => h7 e (by simp [he])
      have hrec := ih (S ++ [ed]) F G h1t h2t h3t h4 h5 h6t h7t
      simp only [List.foldl_cons, hstep, hrec, List.filter_cons, hflipb,
        Bool.not_false, if_true, if_false]
      simp

lemma pairEdge_key (se : (Nat × Vec3) × (Nat × Vec3)) :
    (pairEdge se).1 = (se.1.1, se.2.1) := rfl

lemma G1_keys (ps : List (Nat × Vec3)) :
    ((pairsOf ps).map pairEdge).map (fun ed => ed.1) =
      (pairsOf ps).map (fun se => (se.1.1, se.2.1)) := by
  rw [List.map_map]
  rfl

/-- The processor's final edge list: the non-flipped constructed edges in
place, followed by the reversed, weight-negated copies of the flipped
ones. -/
lemma process_g_file_graph_edges (ps : List (Nat × Vec3))
    (hnodup : (ps.map (fun p => p.1)).Nodup) :
    (process_g_file_graph ps).edges =
      ((pairsOf ps).map pairEdge).filter (fun ed => !flipB ed) ++
        (((pairsOf ps).map pairEdge).filter flipB).map flipE := by
  have hG1 := build_graph_edges ps hnodup
  have hkeysnd : (((pairsOf ps).map pairEdge).map (fun ed => ed.1)).Nodup := by
    rw [G1_keys]
    exact pairsOf_keys_nodup ps hnodup
  have hkeyord : ∀ k ∈ ((pairsOf ps).map pairEdge).map (fun ed => ed.1), k.1 < k.2 := by
    intro k hk
    rw [G1_keys] at hk
    obtain ⟨se, hse, rfl⟩ := List.mem_map.mp hk
    exact pairsOf_ordered ps se hse
  have hwform : ∀ ed ∈ (pairsOf ps).map pairEdge, ∃ w, ed.2 = wdict w := by
    intro ed hed
    obtain ⟨se, _, rfl⟩ := List.mem_map.mp hed
    exact ⟨vsub se.2.2 se.1.2, rfl⟩
  have := norm_fold_chars ((pairsOf ps).map pairEdge) [] []
    ⟨(pairsOf ps).map pairEdge⟩ (by simp)
    (by simpa using hkeysnd) (by simpa using hkeyord)
    (by simp) (by simp) (by simp) hwform
  simp only [List.nil_append, List.append_nil] at this
  show ((ps.foldl (fun G s => ps.foldl (addPairStep s) G)
    (⟨[]⟩ : DiGraph (AttrDict Vec3))).edges.foldl normStep
      (ps.foldl (fun G s => ps.foldl (addPairStep s) G) ⟨[]⟩)).edges = _
  rw [hG1]
  have hGfull : (ps.foldl (fun G s => ps.foldl (addPairStep s) G)
      (⟨[]⟩ : DiGraph (AttrDict Vec3))) = ⟨(pairsOf ps).map pairEdge⟩ := by
    cases hG : (ps.foldl (fun G s => ps.foldl (addPairStep s) G)
      (⟨[]⟩ : DiGraph (AttrDict Vec3)))
    congr 1
    rw [← hG1, hG]
  rw [hGfull]
  exact this

lemma findPos_eq_of_mem (ps : List (Nat × Vec3))
    (hnodup : (ps.map (fun p => p.1)).Nodup) (i : Nat) (p : Vec3)
    (hmem : (i, p) ∈ ps) : findPos ps i = some p := by
  induction ps with
  | nil => simp at hmem
  | cons q ps ih =>
    rw [List.map_cons, List.nodup_cons] at hnodup
    obtain ⟨hq, hnd⟩ := hnodup
    rw [List.mem_cons] at hmem
    rcases hmem with rfl | hmem
    · simp [findPos]
    · have hqi : (decide (q.1 = i)) = false := by
        simp only [decide_eq_false_iff_not]
        intro h
        apply hq
        rw [h]
        exact List.mem_map.mpr ⟨(i, p), hmem, rfl⟩
      rw [findPos, List.find?_cons, hqi]
      exact ih hnd hmem

lemma mem_of_findPos (ps : List (Nat × Vec3)) (i : Nat) (p : Vec3)
    (h : findPos ps i = some p) : (i, p) ∈ ps := by
  rw [findPos] at h
  obtain ⟨q, hq, hq2⟩ := Option.map_eq_some'.mp h
  have hmem := List.mem_of_find?_eq_some hq
  have hkey := List.find?_some hq
  rw [decide_eq_true_eq] at hkey
  have hqe : q = (i, p) := by
    cases q
    simp_all
  rwa [hqe] at hmem

lemma vneg_vsub (a b : Vec3) : vneg (vsub a b) = vsub b a := by
  simp [vneg, vsub]

lemma vz_vsub (a b : Vec3) : vz (vsub a b) = vz a - vz b := rfl

/-- C2: for every resolved position map with distinct object ids (as any
Python dict of positions has), the graph built and normalized by
`process_g_file` contains exactly one directed edge per unordered pair of
resolved objects (its edge keys are distinct, and for each pair of
distinct resolved objects exactly one direction is present), and every
edge's weight has a non-negative vertical component and equals the target
object's position minus the source object's position — so every edge
points from the lower object to the higher one. -/
theorem c2_process_g_file_upward (positions : List (Nat × Vec3))
    (hnodup : (positions.map (fun p => p.1)).Nodup) :
    ((process_g_file_graph positions).edges.map (fun ed => ed.1)).Nodup ∧
    (∀ i j, i ≠ j → (∃ pi, findPos positions i = some pi) →
      (∃ pj, findPos positions j = some pj) →
      ((hasEdge (process_g_file_graph positions) i j = true ∧
        hasEdge (process_g_file_graph positions) j i = false) ∨
       (hasEdge (process_g_file_graph positions) j i = true ∧
        hasEdge (process_g_file_graph positions) i j = false))) ∧
    (∀ ed ∈ (process_g_file_graph positions).edges,
      ed.1.1 ≠ ed.1.2 ∧
      ∃ w pu pv, ed.2 = wdict w ∧ findPos positions ed.1.1 = some pu ∧
        findPos positions ed.1.2 = some pv ∧ w = vsub pv pu ∧ 0 ≤ vz w) := by
  set E := (pairsOf positions).map pairEdge with hE
  have hedges := process_g_file_graph_edges positions hnodup
  have hkeysnd : (E.map (fun ed => ed.1)).Nodup := by
    rw [hE, G1_keys]
    exact pairsOf_keys_nodup positions hnodup
  have hEnd : E.Nodup := List.Nodup.of_map _ hkeysnd
  have hkeyord : ∀ k ∈ E.map (fun ed => ed.1), k.1 < k.2 := by
    intro k hk
    rw [hE, G1_keys] at hk
    obtain ⟨se, hse, rfl⟩ := List.mem_map.mp hk
    exact pairsOf_ordered positions se hse
  -- keys of the kept part and of the flipped part
  have hKkeys_sub : ∀ k, k ∈ (E.filter (fun ed => !flipB ed)).map (fun ed => ed.1) →
      k ∈ E.map (fun ed => ed.1) :=
    fun k hk => ((List.filter_sublist E).map _).subset hk
  have hMkeys : ((E.filter flipB).map flipE).map (fun ed => ed.1) =
      (E.filter flipB).map (fun ed => (ed.1.2, ed.1.1)) := by
    rw [List.map_map]
    rfl
  have hfinkeys : (process_g_file_graph positions).edges.map (fun ed => ed.1) =
      (E.filter (fun ed => !flipB ed)).map (fun ed => ed.1) ++
        (E.filter flipB).map (fun ed => (ed.1.2, ed.1.1)) := by
    rw [hedges, List.map_append, hMkeys]
  have hfilterk : ((E.filter flipB).map (fun ed => ed.1)).Nodup :=
    ((List.filter_sublist E).map _).nodup hkeysnd
  refine ⟨?_, ?_, ?_⟩
  · -- distinct edge keys
    rw [hfinkeys, List.nodup_append]
    refine ⟨((List.filter_sublist E).map _).nodup hkeysnd, ?_, ?_⟩
    · refine List.Nodup.map_on ?_ (hEnd.filter _)
      intro x hx y hy hxy
      rw [Prod.mk.injEq] at hxy
      have hk : x.1 = y.1 := Prod.ext_iff.mpr ⟨hxy.2, hxy.1⟩
      exact List.inj_on_of_nodup_map hkeysnd
        (List.mem_of_mem_filter hx) (List.mem_of_mem_filter hy) hk
    · intro k hk hk2
      have hord := hkeyord k (hKkeys_sub k hk)
      obtain ⟨ed, hed, hkk⟩ := List.mem_map.mp hk2
      have hord2 := hkeyord ed.1 (List.mem_map.mpr ⟨ed, List.mem_of_mem_filter hed, rfl⟩)
      rw [← hkk] at hord
      simp only at hord
      omega
  · -- exactly one direction per unordered pair of resolved objects
    have aux : ∀ i j, i < j → (∃ pi, findPos positions i = some pi) →
        (∃ pj, findPos positions j = some pj) →
        (hasEdge (process_g_file_graph positions) i j = true ∧
          hasEdge (process_g_file_graph positions) j i = false) ∨
        (hasEdge (process_g_file_graph positions) j i = true ∧
          hasEdge (process_g_file_graph positions) i j = false) := by
      intro i j hij ⟨pi, hpi⟩ ⟨pj, hpj⟩
      have hmi := mem_of_findPos positions i pi hpi
      have hmj := mem_of_findPos positions j pj hpj
      have hkey : ((i, j) : Nat × Nat) ∈ E.map (fun ed => ed.1) := by
        rw [hE, G1_keys]
        exact (pairsOf_keys_mem positions i j).mpr ⟨pi, pj, hmi, hmj, hij⟩
      obtain ⟨ed0, hed0, hed0k⟩ := List.mem_map.mp hkey
      have hinK : ∀ ed1 ∈ E.filter (fun ed => !flipB ed), ed1.1 = (i, j) → ed1 = ed0 :=
        fun ed1 h1 hk1 => List.inj_on_of_nodup_map hkeysnd
          (List.mem_of_mem_filter h1) hed0 (by rw [hk1, hed0k])
      have hinM : ∀ ed1 ∈ E.filter flipB, ed1.1 = (i, j) → ed1 = ed0 :=
        fun ed1 h1 hk1 => List.inj_on_of_nodup_map hkeysnd
          (List.mem_of_mem_filter h1) hed0 (by rw [hk1, hed0k])
      have hnotrev : ((j, i) : Nat × Nat) ∉ E.map (fun ed => ed.1) := by
        intro hmem
        have := hkeyord _ hmem
        omega
      by_cases hf : flipB ed0
      · refine Or.inr ⟨?_, ?_⟩
        · rw [hasEdge_iff_mem, hfinkeys, List.mem_append]
          refine Or.inr (List.mem_map.mpr ⟨ed0, List.mem_filter.mpr ⟨hed0, hf⟩, ?_⟩)
          rw [hed0k]
        · rw [← Bool.not_eq_true, hasEdge_iff_mem, hfinkeys, List.mem_append]
          rintro (hmem | hmem)
          · obtain ⟨ed1, h1, hk1⟩ := List.mem_map.mp hmem
            have := hinK ed1 h1 hk1
            subst this
            have := List.mem_filter.mp h1
            rw [hf] at this
            simp at this
          · obtain ⟨ed1, h1, hk1⟩ := List.mem_map.mp hmem
            rw [Prod.mk.injEq] at hk1
            have hk1' : ed1.1 = (j, i) := Prod.ext_iff.mpr ⟨hk1.2, hk1.1⟩
            apply hnotrev
            rw [← hk1']
            exact List.mem_map.mpr ⟨ed1, List.mem_of_mem_filter h1, rfl⟩
      · refine Or.inl ⟨?_, ?_⟩
        · rw [hasEdge_iff_mem, hfinkeys, List.mem_append]
          refine Or.inl (List.mem_map.mpr ⟨ed0,
            List.mem_filter.mpr ⟨hed0, by rw [Bool.not_eq_true] at hf; rw [hf]; rfl⟩, hed0k⟩)
        · rw [← Bool.not_eq_true, hasEdge_iff_mem, hfinkeys, List.mem_append]
          rintro (hmem | hmem)
          · obtain ⟨ed1, h1, hk1⟩ := List.mem_map.mp hmem
            apply hnotrev
            rw [← hk1]
            exact List.mem_map.mpr ⟨ed1, List.mem_of_mem_filter h1, rfl⟩
          · obtain ⟨ed1, h1, hk1⟩ := List.mem_map.mp hmem
            rw [Prod.mk.injEq] at hk1
            have hk1' : ed1.1 = (i, j) := Prod.ext_iff.mpr ⟨hk1.2, hk1.1⟩
            have heq1 := hinM ed1 h1 hk1'
            subst heq1
            have hmf := List.mem_filter.mp h1
            rw [Bool.not_eq_true] at hf
            rw [hf] at hmf
            simp at hmf
    intro i j hij hpi hpj
    rcases Nat.lt_or_ge i j with h | h
    · exact aux i j h hpi hpj
    · have hji : j < i := by omega
      exact (aux j i hji hpj hpi).symm
  · -- every edge is upward and weighted by the position difference
    intro ed hed
    rw [hedges, List.mem_append] at hed
    rcases hed with hed | hed
    · obtain ⟨hmem, hkeep⟩ := List.mem_filter.mp hed
      obtain ⟨se, hse, rfl⟩ := List.mem_map.mp hmem
      simp only [pairsOf, List.mem_flatMap, List.mem_map, List.mem_filter,
        decide_eq_true_eq] at hse
      obtain ⟨s, hs, e, ⟨he, hlt⟩, rfl⟩ := hse
      have hnoflip : ¬ vz (vsub e.2 s.2) < 0 := by
        simp only [pairEdge, flipB, dictGet_wdict, Bool.not_eq_true', decide_eq_false_iff_not]
          at hkeep
        exact hkeep
      refine ⟨by simp only [pairEdge]; omega,
        vsub e.2 s.2, s.2, e.2, rfl, ?_, ?_, rfl, by linarith [not_lt.mp hnoflip]⟩
      · exact findPos_eq_of_mem positions hnodup s.1 s.2 hs
      · exact findPos_eq_of_mem positions hnodup e.1 e.2 he
    · obtain ⟨ed0, hed0, rfl⟩ := List.mem_map.mp hed
      obtain ⟨hmem, hflip⟩ := List.mem_filter.mp hed0
      obtain ⟨se, hse, rfl⟩ := List.mem_map.mp hmem
      simp only [pairsOf, List.mem_flatMap, List.mem_map, List.mem_filter,
        decide_eq_true_eq] at hse
      obtain ⟨s, hs, e, ⟨he, hlt⟩, rfl⟩ := hse
      have hneg : vz (vsub e.2 s.2) < 0 := by
        simp only [pairEdge, flipB, dictGet_wdict, decide_eq_true_eq] at hflip
        exact hflip
      have hflipEval : flipE (pairEdge ((s, e))) =
          ((e.1, s.1), wdict (vsub s.2 e.2)) := by
        simp only [flipE, pairEdge, wOf, dictGet_wdict, vneg_vsub]
      rw [hflipEval]
      refine ⟨by simp only; omega,
        vsub s.2 e.2, e.2, s.2, rfl, ?_, ?_, rfl, ?_⟩
      · exact findPos_eq_of_mem positions hnodup e.1 e.2 he
      · exact findPos_eq_of_mem positions hnodup s.1 s.2 hs
      · rw [vz_vsub] at hneg ⊢
        linarith

/-- The position map used by the C2 witness: object 0 at the origin and
object 1 directly above it. -/
def exPos : List (Nat × Vec3) := [(0, (0, 0, 0)), (1, (0, 0, 1))]

/-- Witness for C2 at the concrete two-object position map `exPos`. -/
theorem c2_process_g_file_upward_witness :
    (exPos.map (fun p => p.1)).Nodup ∧
    (((process_g_file_graph exPos).edges.map (fun ed => ed.1)).Nodup ∧
    (∀ i j, i ≠ j → (∃ pi, findPos exPos i = some pi) →
      (∃ pj, findPos exPos j = some pj) →
      ((hasEdge (process_g_file_graph exPos) i j = true ∧
        hasEdge (process_g_file_graph exPos) j i = false) ∨
       (hasEdge (process_g_file_graph exPos) j i = true ∧
        hasEdge (process_g_file_graph exPos) i j = false))) ∧
    (∀ ed ∈ (process_g_file_graph exPos).edges,
      ed.1.1 ≠ ed.1.2 ∧
      ∃ w pu pv, ed.2 = wdict w ∧ findPos exPos ed.1.1 = some pu ∧
        findPos exPos ed.1.2 = some pv ∧ w = vsub pv pu ∧ 0 ≤ vz w)) :=
  ⟨by decide, c2_process_g_file_upward exPos (by decide)⟩

/-- C5 (amended): on every graph on which the index shift keeps edge keys
distinct (no two edges collide after the shift), `correct_graph_edge_indices`
rewrites every edge `(u, v)` to `(u', v')` where `u' = u - 1` if `u > 0`
else `u` (likewise for `v`), preserving each edge's attributes — the
resulting edge list is exactly the shifted original — and in particular on
the parser's 0-based graphs this is a second shift: an edge between nodes
0 and 1 becomes a self-loop at 0.  (When shifted keys collide, the later
edge's attributes overwrite the earlier edge's, per the counterexample.) -/
theorem c5_correct_indices_shift (G : DiGraph δ)
    (h : ((G.edges.map shiftEdge).map (fun e => e.1)).Nodup) :
    (correct_graph_edge_indices G).edges = G.edges.map shiftEdge ∧
    ∀ d : δ, ((0, 1), d) ∈ G.edges → ((0, 0), d) ∈ (correct_graph_edge_indices G).edges := by
  have hmain : (correct_graph_edge_indices G).edges = G.edges.map shiftEdge := by
    rw [correct_graph_edge_indices]
    rw [foldl_add_edge_fresh (G.edges.map shiftEdge) (clear_edges G) h
      (by simp [clear_edges])]
    simp [clear_edges]
  refine ⟨hmain, ?_⟩
  intro d hd
  rw [hmain]
  exact List.mem_map.mpr ⟨((0, 1), d), hd, rfl⟩

/-- The graph used by the C5 witness: collision-free shifted keys. -/
def exG5w : DiGraph ℤ := ⟨[((0, 1), 5), ((1, 2), 7)]⟩

/-- Witness for the amended C5 on `exG5w`: the shift is applied to every
edge, attributes preserved, and the edge between 0 and 1 becomes a
self-loop at 0. -/
theorem c5_correct_indices_shift_witness :
    ((exG5w.edges.map shiftEdge).map (fun e => e.1)).Nodup ∧
    ((correct_graph_edge_indices exG5w).edges = exG5w.edges.map shiftEdge ∧
    ∀ d : ℤ, ((0, 1), d) ∈ exG5w.edges →
      ((0, 0), d) ∈ (correct_graph_edge_indices exG5w).edges) :=
  ⟨by decide, c5_correct_indices_shift exG5w (by decide)⟩

/-!
Main Orchestrator (`main.py`), execution loop.  The robot configuration,
KOMO paths and recorded frame states do not affect the loop's control
decisions and are not modelled; the solver is abstracted as an oracle
`solve : Nat → Bool` giving the feasibility flag `ret.feasible` of
`optimize(obj_index, config)`.  Fresh replanning (`option=1`) re-parses
the same target directory, so it deterministically peels the same first
parsed batch `g0`.
-/

/-- The loop-relevant locals of `main`: the checkpoint counter, the
success flag, the current building order, `plan[1]` (the residual batch of
the latest full plan), the local variable `graph` (unset before the first
feasible iteration, which `none` models), the latest solver flag `ret`
(recomputed at the top of an iteration only while the checkpoint counter
is zero; the initial value is irrelevant for that reason), and the total
object count. -/
structure MainState (α : Type) where
  checkpoint_counter : Nat
  objective_realized : Bool
  building_order : List Nat
  plan_residual : PygData α
  graphVar : Option (PygData α)
  ret_feasible : Bool
  num_objects : Nat
deriving DecidableEq

/-- One iteration of the `while not objective_realized` loop of `main`.
`none` models an uncaught Python exception (an unbound `graph`, or a
`create_plan` failure).  In the feasible branch the counter advances, the
plan is refreshed incrementally from the previous residual, the new first
object is optimized, and success is flagged when the counter reaches
`num_objects - 1`; in the infeasible branch only the building order is
recomputed — fresh while the counter is zero, incrementally from the
last `graph` thereafter. -/
def mainStep [LinearOrder β] (scorer : PygData α → List β) (g0 : PygData α)
    (solve : Nat → Bool) (s : MainState α) : Option (MainState α) :=
  let ret := if s.checkpoint_counter = 0
    then solve (s.building_order.getD s.checkpoint_counter 0)
    else s.ret_feasible
  if ret then
    let checkpoint_counter := s.checkpoint_counter + 1
    let graph := s.plan_residual
    match create_plan scorer graph with
    | none => none
    | some plan =>
      let building_order := plan.1
      let ret2 := solve (building_order.getD 0 0)
      some { checkpoint_counter := checkpoint_counter
             objective_realized := decide (checkpoint_counter = s.num_objects - 1)
             building_order := building_order
             plan_residual := plan.2
             graphVar := some graph
             ret_feasible := ret2
             num_objects := s.num_objects }
  else
    if s.checkpoint_counter = 0 then
      match create_plan scorer g0 with
      | none => none
      | some plan => some { s with building_order := plan.1 }
    else
      match s.graphVar with
      | none => none
      | some g =>
        match create_plan scorer g with
        | none => none
        | some plan => some { s with building_order := plan.1 }

/-- `n` iterations of the loop body. -/
def iterateMain [LinearOrder β] (scorer : PygData α → List β) (g0 : PygData α)
    (solve : Nat → Bool) : Nat → MainState α → Option (MainState α)
  | 0, s => some s
  | n + 1, s =>
    match mainStep scorer g0 solve s with
    | none => none
    | some s' => iterateMain scorer g0 solve n s'

/-- The loop-entry state of `main` for the initial plan `p0`. -/
def mainInit (p0 : List Nat × PygData α) : MainState α :=
  { checkpoint_counter := 0
    objective_realized := false
    building_order := p0.1
    plan_residual := p0.2
    graphVar := none
    ret_feasible := false
    num_objects := p0.1.length }

/-- C3: whenever the optimization result is infeasible, the iteration
recomputes the building order — in fresh mode while the checkpoint counter
is zero, incrementally from the last `graph` thereafter — and changes
nothing else: the checkpoint counter does not advance and the
objective-realized flag is not set.  With an always-infeasible solver the
loop-entry state is a fixpoint of the loop body, so after any number `n`
of iterations the checkpoint counter is still zero, success is never
reported, and the loop guard `not objective_realized` still holds — the
loop never terminates (no retry bound exists). -/
theorem c3_infeasible_never_progresses [LinearOrder β] (scorer : PygData α → List β)
    (g0 : PygData α) (solve : Nat → Bool) (n : Nat) (p0 : List Nat × PygData α)
    (hplan : create_plan scorer g0 = some p0)
    (hsolve : ∀ i, solve i = false) :
    (∀ s : MainState α, s.checkpoint_counter = 0 →
      solve (s.building_order.getD s.checkpoint_counter 0) = false →
      mainStep scorer g0 solve s = some { s with building_order := p0.1 }) ∧
    (∀ (s : MainState α) (g : PygData α) (plan : List Nat × PygData α),
      s.checkpoint_counter ≠ 0 → s.ret_feasible = false → s.graphVar = some g →
      create_plan scorer g = some plan →
      mainStep scorer g0 solve s = some { s with building_order := plan.1 }) ∧
    (iterateMain scorer g0 solve n (mainInit p0) = some (mainInit p0) ∧
      (mainInit p0).checkpoint_counter = 0 ∧
      (mainInit p0).objective_realized = false) := by
  have hkey : ∀ s : MainState α, s.checkpoint_counter = 0 →
      solve (s.building_order.getD s.checkpoint_counter 0) = false →
      mainStep scorer g0 solve s = some { s with building_order := p0.1 } := by
    intro s hcp hs
    rw [hcp] at hs
    have hs' : solve (s.building_order[0]?.getD 0) = false := by simpa using hs
    simp [mainStep, hcp, hs', hplan]
  refine ⟨hkey, ?_, ?_⟩
  · intro s g plan hcp hret hgv hcplan
    simp [mainStep, hcp, hret, hgv, hcplan]
  · have hfix : mainStep scorer g0 solve (mainInit p0) = some (mainInit p0) := by
      have h := hkey (mainInit p0) rfl (hsolve _)
      rw [h]
      rfl
    have hiter : ∀ m, iterateMain scorer g0 solve m (mainInit p0) = some (mainInit p0) := by
      intro m
      induction m with
      | zero => rfl
      | succ m ih =>
        simp only [iterateMain, hfix]
        exact ih
    exact ⟨hiter n, rfl, rfl⟩

/-- The always-infeasible solver stub. -/
def alwaysInfeasible : Nat → Bool := fun _ => false

/-- The initial plan computed by `constScorer` on `exG`. -/
def exPlan0 : List Nat × PygData ℤ :=
  ([2, 1, 0], { num_nodes := 2, edge_index := [(0, 1)], edge_attr := [10] })

/-- Witness for C3 at `constScorer`, `exG`, and the always-infeasible
solver, after 3 iterations. -/
theorem c3_infeasible_never_progresses_witness :
    create_plan constScorer exG = some exPlan0 ∧
    (∀ i, alwaysInfeasible i = false) ∧
    ((∀ s : MainState ℤ, s.checkpoint_counter = 0 →
      alwaysInfeasible (s.building_order.getD s.checkpoint_counter 0) = false →
      mainStep constScorer exG alwaysInfeasible s = some { s with building_order := exPlan0.1 }) ∧
    (∀ (s : MainState ℤ) (g : PygData ℤ) (plan : List Nat × PygData ℤ),
      s.checkpoint_counter ≠ 0 → s.ret_feasible = false → s.graphVar = some g →
      create_plan constScorer g = some plan →
      mainStep constScorer exG alwaysInfeasible s = some { s with building_order := plan.1 }) ∧
    (iterateMain constScorer exG alwaysInfeasible 3 (mainInit exPlan0) = some (mainInit exPlan0) ∧
      (mainInit exPlan0).checkpoint_counter = 0 ∧
      (mainInit exPlan0).objective_realized = false)) :=
  ⟨by decide, fun _ => rfl,
    c3_infeasible_never_progresses constScorer exG alwaysInfeasible 3 exPlan0
      (by decide) (fun _ => rfl)⟩
